import Mathlib

/-!
Verification of the bit-addressing core of the C++ bit library.

The development shallowly embeds the word-instruction layer
(`cpp/bit_details.hpp`), the bit value / reference / pointer / iterator
wrappers (`src/bit_value.hpp`, `src/bit_reference.hpp`, `src/bit_pointer.hpp`,
`src/bit_iterator.hpp`) and the algorithms `count` and `reverse`
(`lib/bit_algorithm.hpp`).  Machine words of bit width `D` are represented by
natural numbers below `2 ^ D`; every C++ operation on the word type that can
exceed that range is followed by an explicit `% 2 ^ D`, matching unsigned
wrap-around.  Word sequences are `List Nat`; a bit iterator over such a
sequence is given by its word index and its in-word position.
-/

namespace bit

/-! ## Word instruction layer (`bit_details.hpp`) -/

/-- Population count, portable fallback of `_popcnt`:
`for (dst = T(); src; src >>= 1) dst += src & 1;`. -/
def _popcnt (src : Nat) : Nat :=
  if h : src = 0 then 0 else (src &&& 1) + _popcnt (src >>> 1)
decreasing_by
  simp only [Nat.shiftRight_one]
  exact Nat.div_lt_self (Nat.pos_of_ne_zero h) one_lt_two

/-- Bit field extraction, portable fallback of `_bextr`:
`msk = (one << len) * (len < digits) - one; return (src >> start) & msk * (start < digits);`.
The subtraction wraps around in the unsigned word type, hence the `+ (2 ^ D - 1)`
followed by the reduction modulo `2 ^ D`. -/
def _bextr (D src start len : Nat) : Nat :=
  let msk := ((1 <<< len) * (if len < D then 1 else 0) + (2 ^ D - 1)) % 2 ^ D
  (src >>> start) &&& msk * (if start < D then 1 else 0)

/-- Double precision shift left `_shld`:
`cnt < digits ? (dst << cnt) | (src >> (digits - cnt)) : (src << (cnt - digits)) * (cnt < 2 * digits)`. -/
def _shld (D dst src cnt : Nat) : Nat :=
  if cnt < D then ((dst <<< cnt) % 2 ^ D) ||| (src >>> (D - cnt))
  else ((src <<< (cnt - D)) % 2 ^ D) * (if cnt < D + D then 1 else 0)

/-- Double precision shift right `_shrd`:
`cnt < digits ? (dst >> cnt) | (src << (digits - cnt)) : (src >> (cnt - digits)) * (cnt < 2 * digits)`. -/
def _shrd (D dst src cnt : Nat) : Nat :=
  if cnt < D then (dst >>> cnt) ||| ((src <<< (D - cnt)) % 2 ^ D)
  else (src >>> (cnt - D)) * (if cnt < D + D then 1 else 0)

/-- Bit blend `_bitblend` with a `(start, len)` pair:
`msk = ((one << len) * (len < digits) - one) << start;
 return src0 ^ ((src0 ^ src1) & msk * (start < digits));`. -/
def _bitblend (D src0 src1 start len : Nat) : Nat :=
  let msk := ((((1 <<< len) * (if len < D then 1 else 0) + (2 ^ D - 1)) % 2 ^ D) <<< start) % 2 ^ D
  src0 ^^^ ((src0 ^^^ src1) &&& msk * (if start < D then 1 else 0))

/-- Mask metafunction of `_bitswap`:
`cnt = digits; msk = ~T(); while (cnt != N) { cnt >>= 1; msk ^= (msk << cnt); }`.
The C++ loop halves `cnt` starting from `digits`, so `D` iterations always
suffice; the fuel argument makes the translation structurally total. -/
def _bitswap_msk_go (D N : Nat) : Nat → Nat → Nat → Nat
  | 0, _, msk => msk
  | fuel + 1, cnt, msk =>
    if cnt = N then msk
    else _bitswap_msk_go D N fuel (cnt / 2) (msk ^^^ (msk <<< (cnt / 2)) % 2 ^ D)

/-- Mask for the recursive bit swap metafunction, instantiated at `cnt = digits`,
`msk = ~T()`. -/
def _bitswap_msk (D N : Nat) : Nat :=
  _bitswap_msk_go D N D D (2 ^ D - 1)

/-- Recursive halve-and-swap metafunction of `_bitswap`:
`cnt = N >> 1; msk = _bitswap<T, cnt>();
 src = ((src >> cnt) & msk) | ((src << cnt) & ~msk);
 return cnt > 1 ? _bitswap<T, cnt>(src) : src;`. -/
def _bitswap_rec (D : Nat) : Nat → Nat → Nat
  | N, src =>
    let cnt := N / 2
    let msk := _bitswap_msk D cnt
    let src2 := ((src >>> cnt) &&& msk) ||| ((src <<< cnt) % 2 ^ D &&& ((2 ^ D - 1) ^^^ msk))
    if h : 1 < cnt then _bitswap_rec D cnt src2 else src2
termination_by N _ => N
decreasing_by
  exact Nat.div_lt_self (by omega) one_lt_two

/-- Loop of the linear (non power of two) fallback of `_bitswap`:
`for (src >>= 1; src; src >>= 1) { dst <<= 1; dst |= src & 1; i--; } dst <<= i;`,
with all operations on `dst` performed in the `D`-bit word type. -/
def _bitswap_lin_go (D : Nat) (dst src i : Nat) : Nat :=
  if h : src = 0 then (dst <<< i) % 2 ^ D
  else _bitswap_lin_go D (((dst <<< 1) % 2 ^ D) ||| (src &&& 1)) (src >>> 1) (i - 1)
decreasing_by
  simp only [Nat.shiftRight_one]
  exact Nat.div_lt_self (Nat.pos_of_ne_zero h) one_lt_two

/-- One halve-and-swap level of `_bitswap_rec`:
`((src >> cnt) & msk) | ((src << cnt) & ~msk)`. -/
def bitswapLevel (D cnt src : Nat) : Nat :=
  ((src >>> cnt) &&& _bitswap_msk D cnt)
    ||| ((src <<< cnt) % 2 ^ D &&& ((2 ^ D - 1) ^^^ _bitswap_msk D cnt))

/-- Full word bit reversal `_bitswap`, dispatching as the source does on an
octet platform: the multiply-and-mask byte trick when the word is a single
8-bit byte, the logarithmic halve-and-swap when the width is a power of two
(`_popcnt(digits) == 1`, computed with the portable fallback), and the linear
bit-by-bit loop otherwise.  The byte trick computes in a 64-bit type and the
final assignment truncates back to the 8-bit word. -/
def _bitswap (D src : Nat) : Nat :=
  if D = 8 then
    ((((src * 0x80200802) &&& 0x0884422110) * 0x0101010101) % 2 ^ 64) >>> 32 % 2 ^ 8
  else if _popcnt D = 1 then _bitswap_rec D D src
  else _bitswap_lin_go D src (src >>> 1) (D - 1)

/-! ## Word sequences -/

/-- Word read through an iterator position; out of range reads (which the C++
leaves undefined but never lets influence a defined result) give `0`. -/
def wordAt (ws : List Nat) (k : Nat) : Nat := ws.getD k 0

/-- Bit `n` of the flat bit sequence packed into `ws`, LSB first inside each
word: the value read through a bit reference at word `n / D`, position `n % D`. -/
def bitGet (D : Nat) (ws : List Nat) (n : Nat) : Bool :=
  (wordAt ws (n / D)).testBit (n % D)

/-! ## Bit value (`bit_value.hpp`) -/

/-- Compound assignment `bit_value::operator&=` of `src/bit_value.hpp` for an
arithmetic integral argument: `if (*this && val & 1) { set(); }`.  In two's
complement `val & 1` is `1` exactly when `val` is odd, i.e. `val % 2 ≠ 0`
(Lean's `%` on `Int` returning a non-negative remainder). -/
def bit_value.and_assign (b : Bool) (val : Int) : Bool :=
  if b = true ∧ val % 2 = 1 then true else b

/-- Compound assignment `bit_value::operator*=` of `src/bit_value.hpp` for an
arithmetic integral argument: `if (*this && !(val & 1)) { reset(); }`. -/
def bit_value.mul_assign (b : Bool) (val : Int) : Bool :=
  if b = true ∧ ¬val % 2 = 1 then false else b

/-- Stream insertion of a bit value or bit reference:
`os << (x ? '1' : '0')`. -/
def ostream_insert (x : Bool) : Char :=
  if x then '1' else '0'

/-- Stream extraction of `src/bit_value.hpp` and `src/bit_reference.hpp`
(`unsigned int tmp; is >> tmp; x = tmp;`) applied to a single-character
stream: a decimal digit parses as an unsigned integer and on any other
character the extraction of `tmp` fails, setting the stream failure flag and
(since C++11) value-initializing `tmp` to `0`; the assignment `x = tmp` runs
unconditionally and keeps the least significant bit.  The result is the pair
(failure flag, stored bit). -/
def istream_extract_src (c : Char) : Bool × Bool :=
  if c.isDigit then (false, (c.toNat - '0'.toNat) % 2 == 1)
  else (true, false)

/-- Stream extraction of `cpp/bit_value.hpp`: reads one character; `'0'`
resets, `'1'` sets, anything else is put back and only the failure flag is
set, the stored bit keeping its previous value `x`.  The result is the pair
(failure flag, stored bit). -/
def istream_extract_cpp (c : Char) (x : Bool) : Bool × Bool :=
  if c = '0' then (false, false)
  else if c = '1' then (false, true)
  else (true, x)

/-! ## Bit reference (`bit_reference.hpp`) -/

/-- A bit reference into a word sequence: the index of the referenced word
(standing for the stored word pointer) and the single-bit mask. -/
structure bit_reference where
  ptr : Nat
  mask : Nat
deriving DecidableEq, Repr

/-- Construction from a word and a position: `_mask(static_cast<T>(1) << pos)`
with the assertion `pos < digits` as a caller contract. -/
def bit_reference.make (i pos : Nat) : bit_reference :=
  ⟨i, 1 <<< pos⟩

/-- Read through a bit reference, `operator bool`: `*_ptr & _mask`. -/
def bit_reference.read (r : bit_reference) (ws : List Nat) : Bool :=
  wordAt ws r.ptr &&& r.mask != 0

/-- The mutation `bit_reference::set()`: `*_ptr |= _mask`. -/
def bit_reference.set (r : bit_reference) (ws : List Nat) : List Nat :=
  ws.set r.ptr (wordAt ws r.ptr ||| r.mask)

/-- The mutation `bit_reference::reset()`: `*_ptr &= ~_mask`, the complement
taken in the `D`-bit word type. -/
def bit_reference.reset (D : Nat) (r : bit_reference) (ws : List Nat) : List Nat :=
  ws.set r.ptr (wordAt ws r.ptr &&& ((2 ^ D - 1) ^^^ r.mask))

/-- The mutation `bit_reference::flip()`: `*_ptr ^= _mask`. -/
def bit_reference.flip (r : bit_reference) (ws : List Nat) : List Nat :=
  ws.set r.ptr (wordAt ws r.ptr ^^^ r.mask)

/-- The mutation `bit_reference::set(bool)`: `b ? set() : reset()`. -/
def bit_reference.assign (D : Nat) (r : bit_reference) (ws : List Nat) (b : Bool) : List Nat :=
  if b then r.set ws else r.reset D ws

/-! ## Bit iterator and bit pointer arithmetic (`bit_iterator.hpp`, `bit_pointer.hpp`) -/

/-- A bit iterator: the underlying word iterator (an offset into the word
sequence, possibly negative after arithmetic) and the in-word position.  The
stored `_position` is a `size_t`; every value it takes in the runs modelled
here is non-negative, so an integer represents it faithfully. -/
structure bit_iterator where
  current : Int
  position : Int
deriving DecidableEq, Repr

/-- The iterator `operator+`:
`sum = _position + n; diff = sum / digits;
 if (n < 0 && diff * digits != sum) { --diff; }
 return bit_iterator(_current + diff, sum - diff * digits);`
with `/` the C++ truncating division on `intmax_t`. -/
def bit_iterator.add (D : Nat) (it : bit_iterator) (n : Int) : bit_iterator :=
  let sum := it.position + n
  let diff0 := sum.tdiv D
  let diff := if n < 0 ∧ diff0 * D ≠ sum then diff0 - 1 else diff0
  ⟨it.current + diff, sum - diff * D⟩

/-- The iterator `operator-` (iterator minus offset), the mirror image of
`bit_iterator.add` with the correction guarded by `n > 0`. -/
def bit_iterator.sub (D : Nat) (it : bit_iterator) (n : Int) : bit_iterator :=
  let sum := it.position - n
  let diff0 := sum.tdiv D
  let diff := if 0 < n ∧ diff0 * D ≠ sum then diff0 - 1 else diff0
  ⟨it.current + diff, sum - diff * D⟩

/-- The pointer and iterator `operator[]`: the same floor-intending offset
computation, returning the addressed word offset and bit position. -/
def bit_pointer.index (D : Nat) (pos n : Int) : Int × Int :=
  let sum := pos + n
  let diff0 := sum.tdiv D
  let diff := if n < 0 ∧ diff0 * D ≠ sum then diff0 - 1 else diff0
  (diff, sum - diff * D)

/-- The iterator pre-increment `operator++`:
`if (_position + 1 < digits) ++_position; else { ++_current; _position = 0; }`. -/
def bit_iterator.inc (D : Nat) (it : bit_iterator) : bit_iterator :=
  if it.position + 1 < D then ⟨it.current, it.position + 1⟩ else ⟨it.current + 1, 0⟩

/-- The difference of two bit iterators:
`(lhs._current - rhs._current) * digits + (lhs._position - rhs._position)`. -/
def bit_iterator.diff (D : Nat) (lhs rhs : bit_iterator) : Int :=
  (lhs.current - rhs.current) * D + (lhs.position - rhs.position)

/-- The iterator `operator<`: lexicographic on `(_current, _position)`. -/
def bit_iterator.lt (lhs rhs : bit_iterator) : Prop :=
  lhs.current < rhs.current ∨ (lhs.current = rhs.current ∧ lhs.position < rhs.position)

/-! ## Algorithms (`lib/bit_algorithm.hpp`) -/

/-- Sum of the population counts of the words with indices in `[a, b)`: the
middle loop of `count`, `for (; it != last.base(); ++it) result += _popcnt(*it);`. -/
def popcntSum (ws : List Nat) (a b : Nat) : Nat :=
  if a < b then _popcnt (wordAt ws a) + popcntSum ws (a + 1) b else 0
termination_by b - a

/-- The accumulation phase of `count(first, last, value)` over a word sequence
`ws`, with `first = (fi, fp)` and `last = (li, lp)` given by base index and
position: when the ends lie in different words it population-counts the
shifted first partial word, every whole middle word, and the left-shifted
last partial word; otherwise it population-counts the extracted field. -/
def countOnes (D : Nat) (ws : List Nat) (fi fp li lp : Nat) : Nat :=
  if fi ≠ li then
    (if fp ≠ 0 then _popcnt (wordAt ws fi >>> fp) else 0)
    + popcntSum ws (if fp ≠ 0 then fi + 1 else fi) li
    + (if lp ≠ 0 then _popcnt ((wordAt ws li <<< (D - lp)) % 2 ^ D) else 0)
  else _popcnt (_bextr D (wordAt ws fi) fp (lp - fp))

/-- The algorithm `count(first, last, value)`: the accumulated ones count,
negated against `std::distance(first, last)` when the zero bit is requested. -/
def count (D : Nat) (ws : List Nat) (fi fp li lp : Nat) (value : Bool) : Int :=
  if value then (countOnes D ws fi fp li lp : Int)
  else ((li : Int) - fi) * D + ((lp : Int) - fp) - countOnes D ws fi fp li lp

/-- The left-shift pass of `reverse` on the already reversed segment:
`for (; it != last.base(); ++it) *it = _shld(*it, *next(it), gap); *it <<= gap;`.
Each element is written once, reading its not yet rewritten successor. -/
def shldMap (D g : Nat) : List Nat → List Nat
  | [] => []
  | [w] => [(w <<< g) % 2 ^ D]
  | w :: w2 :: rest => _shld D w w2 g :: shldMap D g (w2 :: rest)

/-- The right-shift pass of `reverse` on the already reversed segment:
`for (; it != first.base(); --it) *it = _shrd(*it, *prev(it), gap); *it >>= gap;`.
Each element is written once, reading its not yet rewritten predecessor. -/
def shrdMap (D g : Nat) (l : List Nat) : List Nat :=
  match l with
  | [] => []
  | w :: rest => (w >>> g) :: List.zipWith (fun cur prv => _shrd D cur prv g) rest (w :: rest)

/-- The algorithm `reverse(first, last)` over a word sequence `ws`, with
`first = (fi, fp)` and `last = (li, lp)`.  The three source branches: both
ends aligned (reverse the words and bit-swap each), ends in different words
(save the edge words, reverse the touched words, shift the run left or right
by the gap, bit-swap every touched word, and blend the saved edge bits back),
and both ends inside one word (extract, bit-swap, shift and blend in place). -/
def reverse (D : Nat) (ws : List Nat) (fi fp li lp : Nat) : List Nat :=
  let isFA := fp = 0
  let isLA := lp = 0
  let gap := (D - lp) * (if isLA then 0 else 1)
  if isFA ∧ isLA then
    ws.take fi ++ ((ws.drop fi).take (li - fi)).reverse.map (_bitswap D) ++ ws.drop li
  else if fi ≠ li then
    let e := li + (if isLA then 0 else 1)
    let firstVal := wordAt ws fi
    let lastVal := wordAt ws (li - (if isLA then 1 else 0))
    let seg1 := ((ws.drop fi).take (e - fi)).reverse
    let seg2 :=
      if fp < gap then shldMap D (gap - fp) seg1
      else if gap < fp then shrdMap D (fp - gap) seg1
      else seg1
    let seg3 := seg2.map (_bitswap D)
    let seg4 :=
      if isFA then seg3
      else seg3.set 0 (_bitblend D firstVal (seg3.headD 0) fp (D - fp))
    let seg5 :=
      if isLA then seg4
      else seg4.set (e - fi - 1) (_bitblend D (seg4.getD (e - fi - 1) 0) lastVal lp (D - lp))
    ws.take fi ++ seg5 ++ ws.drop e
  else
    let w := wordAt ws fi
    ws.set fi (_bitblend D w (_bitswap D (w >>> fp) >>> gap) fp (lp - fp))

/-! ## Specification-side definitions

These are written from the specification wording, to be compared with the
definitions above: the reversal of the low `D` bits of a number, and the
naive per-bit counting loop. -/

/-- Reversal of the low `d` bits of `x`: bit `j` of the result is bit
`d - 1 - j` of `x`. -/
def natBitRev : Nat → Nat → Nat
  | 0, _ => 0
  | d + 1, x => natBitRev d (x / 2) + x % 2 * 2 ^ d

/-- The naive per-bit counting loop: the number of flat bit indices in
`[a, b)` whose bit equals `v`. -/
def naiveCount (D : Nat) (ws : List Nat) (a b : Nat) (v : Bool) : Nat :=
  ((Finset.Ico a b).filter fun n => bitGet D ws n = v).card

/-- Specification-side pointer and iterator arithmetic: moving by `n` bits
from position `pos` lands `⌊(pos + n) / D⌋` words away (floor division, not
truncation) at the residual position, which always lies in `[0, D)`. -/
def bit_pointer_index_spec (D : Nat) (pos n : Int) : Int × Int :=
  ((pos + n).fdiv D, (pos + n) - (pos + n).fdiv D * D)

/-- Specification-side compound bitwise and of a bit value: the logical and
of the stored bit with the least significant bit of the argument. -/
def bit_value.and_assign_spec (b : Bool) (val : Int) : Bool :=
  b && decide (val % 2 = 1)

/-! ## Generic arithmetic and bit-level helper lemmas -/

theorem mulDivHelper (k D j : Nat) (hD : 0 < D) (hj : j < D) : (k * D + j) / D = k := by
  rw [mul_comm, Nat.mul_add_div hD, Nat.div_eq_of_lt hj, Nat.add_zero]

theorem mulModHelper (k D j : Nat) (hj : j < D) : (k * D + j) % D = j := by
  rw [mul_comm, Nat.mul_add_mod, Nat.mod_eq_of_lt hj]

theorem testBit_ge {x n i : Nat} (h : x < 2 ^ n) (h2 : n ≤ i) : x.testBit i = false := by
  apply Nat.testBit_lt_two_pow
  calc x < 2 ^ n := h
    _ ≤ 2 ^ i := Nat.pow_le_pow_right (by norm_num) h2

theorem land_two_pow_sub_one (x k : Nat) : x &&& (2 ^ k - 1) = x % 2 ^ k := by
  apply Nat.eq_of_testBit_eq
  intro i
  simp only [Nat.testBit_and, Nat.testBit_two_pow_sub_one, Nat.testBit_mod_two_pow]
  rw [Bool.and_comm]

theorem and_lt_two_pow_left {x n : Nat} (h : x < 2 ^ n) (y : Nat) : x &&& y < 2 ^ n := by
  have := Nat.and_le_left (n := x) (m := y)
  omega

theorem and_lt_two_pow_right {y n : Nat} (h : y < 2 ^ n) (x : Nat) : x &&& y < 2 ^ n := by
  have := Nat.and_le_right (n := x) (m := y)
  omega

theorem mod_two_pow_lt (x D : Nat) : x % 2 ^ D < 2 ^ D :=
  Nat.mod_lt _ (Nat.pos_pow_of_pos D (by norm_num))

theorem shiftRight_lt_two_pow {w D : Nat} (hw : w < 2 ^ D) (p : Nat) :
    w >>> p < 2 ^ (D - p) := by
  rw [Nat.shiftRight_eq_div_pow]
  by_cases hp : p ≤ D
  · apply Nat.div_lt_of_lt_mul
    calc w < 2 ^ D := hw
      _ = 2 ^ p * 2 ^ (D - p) := by rw [← pow_add]; congr 1; omega
  · have : w / 2 ^ p = 0 := Nat.div_eq_of_lt (by
      calc w < 2 ^ D := hw
        _ ≤ 2 ^ p := Nat.pow_le_pow_right (by norm_num) (by omega))
    rw [this]
    exact Nat.pos_pow_of_pos _ (by norm_num)

/-! ## Population count -/

theorem _popcnt_zero : _popcnt 0 = 0 := by
  rw [_popcnt]
  simp

theorem _popcnt_ne (src : Nat) (h : src ≠ 0) :
    _popcnt src = (src &&& 1) + _popcnt (src >>> 1) := by
  rw [_popcnt]
  simp [h]

/-- Population count is the number of set bits below any bound dominating the
value. -/
theorem _popcnt_eq_card (n : Nat) :
    ∀ w < 2 ^ n, _popcnt w = ((Finset.range n).filter fun j => w.testBit j).card := by
  induction n with
  | zero =>
    intro w hw
    interval_cases w
    simp [_popcnt_zero]
  | succ n ih =>
    intro w hw
    by_cases h0 : w = 0
    · subst h0
      simp [_popcnt_zero, Nat.zero_testBit]
    · rw [_popcnt_ne w h0]
      have hdiv : w >>> 1 = w / 2 := Nat.shiftRight_one w
      have hlt : w / 2 < 2 ^ n := by
        rw [pow_succ] at hw
        omega
      rw [hdiv, ih (w / 2) hlt]
      rw [Finset.card_filter, Finset.card_filter, Finset.sum_range_succ']
      have hbit : ∀ j, w.testBit (j + 1) = (w / 2).testBit j := fun j => Nat.testBit_succ w j
      simp only [hbit]
      have hand : w &&& 1 = w % 2 := Nat.and_one_is_mod w
      have hzero : (if w.testBit 0 then 1 else 0) = w % 2 := by
        rw [Nat.testBit_zero]
        rcases Nat.mod_two_eq_zero_or_one w with h | h <;> simp [h]
      omega

theorem _popcnt_lt_two_pow {w D : Nat} (hw : w < 2 ^ D) :
    _popcnt w ≤ D := by
  rw [_popcnt_eq_card D w hw]
  calc ((Finset.range D).filter fun j => w.testBit j).card
      ≤ (Finset.range D).card := Finset.card_filter_le _ _
    _ = D := Finset.card_range D

/-! ## Cardinality reindexing -/

theorem card_filter_Ico_add (c a b : Nat) (p : Nat → Prop) [DecidablePred p] :
    ((Finset.Ico (c + a) (c + b)).filter p).card
      = ((Finset.Ico a b).filter fun j => p (c + j)).card := by
  rw [← Finset.map_add_left_Ico a b c, Finset.filter_map, Finset.card_map]
  congr 1

theorem card_filter_congr {s : Finset Nat} {p q : Nat → Prop}
    [DecidablePred p] [DecidablePred q] (h : ∀ x ∈ s, p x ↔ q x) :
    (s.filter p).card = (s.filter q).card := by
  congr 1
  exact Finset.filter_congr (by simpa using h)

/-! ## Correctness of `count` -/

theorem wordAt_lt {D : Nat} {ws : List Nat} (hwf : ∀ w ∈ ws, w < 2 ^ D) (k : Nat) :
    wordAt ws k < 2 ^ D := by
  unfold wordAt
  by_cases h : k < ws.length
  · rw [List.getD_eq_getElem ws 0 h]
    exact hwf _ (List.getElem_mem h)
  · rw [List.getD_eq_default ws 0 (by omega)]
    exact Nat.pos_pow_of_pos _ (by norm_num)

theorem naive_word (D : Nat) (hD : 0 < D) (ws : List Nat) (k x y : Nat) (hy : y ≤ D) :
    ((Finset.Ico (k * D + x) (k * D + y)).filter fun n => bitGet D ws n = true).card
      = ((Finset.Ico x y).filter fun r => (wordAt ws k).testBit r = true).card := by
  rw [card_filter_Ico_add]
  apply card_filter_congr
  intro j hj
  rw [Finset.mem_Ico] at hj
  unfold bitGet
  rw [mulDivHelper k D j hD (by omega), mulModHelper k D j (by omega)]

theorem popcnt_suffix {D w : Nat} (hw : w < 2 ^ D) (p : Nat) (hp : p ≤ D) :
    _popcnt (w >>> p) = ((Finset.Ico p D).filter fun r => w.testBit r = true).card := by
  have hlt : w >>> p < 2 ^ (D - p) := shiftRight_lt_two_pow hw p
  rw [_popcnt_eq_card (D - p) _ hlt]
  have : Finset.Ico p D = Finset.Ico (p + 0) (p + (D - p)) := by congr 1 <;> omega
  rw [this, card_filter_Ico_add, Finset.range_eq_Ico]
  apply card_filter_congr
  intro j hj
  rw [Nat.testBit_shiftRight]

theorem popcnt_low_field {D w : Nat} (hD : 0 < D) (hw : w < 2 ^ D) (lp : Nat) (hlp : lp ≤ D) :
    _popcnt ((w <<< (D - lp)) % 2 ^ D)
      = ((Finset.Ico 0 lp).filter fun r => w.testBit r = true).card := by
  set s := D - lp with hs
  have hlt : (w <<< s) % 2 ^ D < 2 ^ D := mod_two_pow_lt _ D
  rw [_popcnt_eq_card D _ hlt, Finset.range_eq_Ico]
  have hsplit : Finset.Ico 0 D = Finset.Ico 0 s ∪ Finset.Ico s D :=
    (Finset.Ico_union_Ico_eq_Ico (by omega) (by omega)).symm
  rw [hsplit, Finset.filter_union, Finset.card_union_of_disjoint]
  · have h1 : ((Finset.Ico 0 s).filter fun j => ((w <<< s) % 2 ^ D).testBit j = true).card = 0 := by
      rw [Finset.card_eq_zero, Finset.filter_eq_empty_iff]
      intro j hj
      rw [Finset.mem_Ico] at hj
      simp only [Nat.testBit_mod_two_pow, Nat.testBit_shiftLeft]
      simp [Nat.not_le.mpr hj.2]
    rw [h1, Nat.zero_add]
    have : Finset.Ico s D = Finset.Ico (s + 0) (s + lp) := by congr 1 <;> omega
    rw [this, card_filter_Ico_add]
    have : Finset.Ico 0 lp = Finset.Ico (0 : Nat) (0 + lp) := by congr 1; omega
    rw [this]
    apply card_filter_congr
    intro j hj
    rw [Finset.mem_Ico] at hj
    simp only [Nat.testBit_mod_two_pow, Nat.testBit_shiftLeft, Nat.zero_add]
    have e1 : (decide (j < lp)) = true := by simp; omega
    have e2 : (decide (s + j < D)) = true := by simp; omega
    have e3 : (decide (s ≤ s + j)) = true := by simp
    have e4 : s + j - s = j := by omega
    rw [e2, e3, e4]
    simp
  · apply Finset.disjoint_filter_filter
    exact Finset.Ico_disjoint_Ico_consecutive 0 s D

theorem bextr_eq_mod {D w fp len : Nat} (hfp : fp < D) (hlen : len < D) :
    _bextr D w fp len = (w >>> fp) % 2 ^ len := by
  have h3 : (1 : Nat) ≤ 2 ^ len := Nat.one_le_two_pow
  have h4 : (1 : Nat) ≤ 2 ^ D := Nat.one_le_two_pow
  have h5 : 2 ^ len < 2 ^ D := Nat.pow_lt_pow_right (by norm_num) hlen
  simp only [_bextr, if_pos hlen, if_pos hfp, Nat.shiftLeft_eq, Nat.one_mul, Nat.mul_one]
  rw [show 2 ^ len + (2 ^ D - 1) = 2 ^ D + (2 ^ len - 1) by omega,
    Nat.add_mod_left, Nat.mod_eq_of_lt (by omega), land_two_pow_sub_one]

theorem popcnt_field {D w : Nat} (hD : 0 < D) (hw : w < 2 ^ D) (fp lp : Nat)
    (hfp : fp < D) (hlp : lp < D) :
    _popcnt (_bextr D w fp (lp - fp))
      = ((Finset.Ico fp lp).filter fun r => w.testBit r = true).card := by
  rw [bextr_eq_mod hfp (by omega)]
  have hlt : (w >>> fp) % 2 ^ (lp - fp) < 2 ^ (lp - fp) := mod_two_pow_lt _ _
  rw [_popcnt_eq_card (lp - fp) _ hlt, Finset.range_eq_Ico]
  by_cases hord : fp ≤ lp
  · have : Finset.Ico fp lp = Finset.Ico (fp + 0) (fp + (lp - fp)) := by congr 1 <;> omega
    rw [this, card_filter_Ico_add]
    apply card_filter_congr
    intro j hj
    rw [Finset.mem_Ico] at hj
    simp only [Nat.testBit_mod_two_pow, Nat.testBit_shiftRight]
    have : (decide (j < lp - fp)) = true := by simp; omega
    rw [this]
    simp
  · have h1 : lp - fp = 0 := by omega
    have h2 : Finset.Ico fp lp = ∅ := by
      rw [Finset.Ico_eq_empty_iff]
      omega
    rw [h1, h2]
    simp

theorem popcntSum_step (ws : List Nat) (a b : Nat) (h : a < b) :
    popcntSum ws a b = _popcnt (wordAt ws a) + popcntSum ws (a + 1) b := by
  rw [popcntSum]
  simp [h]

theorem popcntSum_end (ws : List Nat) (a b : Nat) (h : ¬a < b) :
    popcntSum ws a b = 0 := by
  rw [popcntSum]
  simp [h]

theorem naive_words (D : Nat) (hD : 0 < D) (ws : List Nat)
    (hwf : ∀ w ∈ ws, w < 2 ^ D) :
    ∀ n i j, j - i = n → i ≤ j →
    ((Finset.Ico (i * D) (j * D)).filter fun x => bitGet D ws x = true).card
      = popcntSum ws i j := by
  intro n
  induction n with
  | zero =>
    intro i j hn hij
    have : i = j := by omega
    subst this
    rw [popcntSum_end ws i i (by omega)]
    simp
  | succ n ih =>
    intro i j hn hij
    have hlt : i < j := by omega
    have hsplit : Finset.Ico (i * D) (j * D)
        = Finset.Ico (i * D) ((i + 1) * D) ∪ Finset.Ico ((i + 1) * D) (j * D) :=
      (Finset.Ico_union_Ico_eq_Ico (Nat.mul_le_mul_right D (by omega))
        (Nat.mul_le_mul_right D (by omega))).symm
    rw [hsplit, Finset.filter_union, Finset.card_union_of_disjoint
      (Finset.disjoint_filter_filter (Finset.Ico_disjoint_Ico_consecutive _ _ _))]
    rw [popcntSum_step ws i j hlt]
    congr 1
    · have h0 : i * D = i * D + 0 := by omega
      have h1 : (i + 1) * D = i * D + D := by ring
      rw [h0, h1, naive_word D hD ws i 0 D le_rfl]
      rw [_popcnt_eq_card D _ (wordAt_lt hwf i), Finset.range_eq_Ico]
    · exact ih (i + 1) j (by omega) (by omega)

/-- The ones accumulation equals the number of one bits in the range. -/
theorem countOnes_eq_naive (D : Nat) (hD : 0 < D) (ws : List Nat)
    (hwf : ∀ w ∈ ws, w < 2 ^ D) (fi fp li lp : Nat)
    (hfp : fp < D) (hlp : lp < D) (hle : fi * D + fp ≤ li * D + lp) :
    countOnes D ws fi fp li lp = naiveCount D ws (fi * D + fp) (li * D + lp) true := by
  have hfi_le : fi ≤ li := by
    by_contra hcon
    have h1 : li + 1 ≤ fi := by omega
    have h2 : (li + 1) * D ≤ fi * D := Nat.mul_le_mul_right D h1
    have h3 : li * D + D ≤ fi * D := by
      calc li * D + D = (li + 1) * D := by ring
        _ ≤ fi * D := h2
    omega
  unfold countOnes naiveCount
  by_cases hbase : fi = li
  · subst hbase
    rw [if_neg (show ¬fi ≠ fi by simp)]
    rw [popcnt_field hD (wordAt_lt hwf fi) fp lp hfp hlp]
    rw [naive_word D hD ws fi fp lp (by omega)]
  · rw [if_pos hbase]
    have hfi_lt : fi < li := by omega
    set mi := if fp ≠ 0 then fi + 1 else fi with hmi
    have hmi_le : mi ≤ li := by
      rw [hmi]
      by_cases h : fp = 0 <;> simp [h] <;> omega
    have hsplit1 : fi * D + fp ≤ mi * D := by
      rw [hmi]
      by_cases h : fp = 0
      · simp [h]
      · simp [h]
        calc fi * D + fp ≤ fi * D + D := by omega
          _ = (fi + 1) * D := by ring
    have hsplit2 : mi * D ≤ li * D := Nat.mul_le_mul_right D hmi_le
    rw [show Finset.Ico (fi * D + fp) (li * D + lp)
        = (Finset.Ico (fi * D + fp) (mi * D) ∪ Finset.Ico (mi * D) (li * D))
          ∪ Finset.Ico (li * D) (li * D + lp) by
      rw [Finset.Ico_union_Ico_eq_Ico hsplit1 hsplit2,
        Finset.Ico_union_Ico_eq_Ico (by omega) (by omega)]]
    rw [Finset.filter_union, Finset.filter_union]
    rw [Finset.card_union_of_disjoint (by
      apply Finset.disjoint_left.mpr
      intro x hx1 hx2
      rw [Finset.mem_union, Finset.mem_filter, Finset.mem_filter,
        Finset.mem_Ico, Finset.mem_Ico] at hx1
      rw [Finset.mem_filter, Finset.mem_Ico] at hx2
      omega)]
    rw [Finset.card_union_of_disjoint (by
      apply Finset.disjoint_filter_filter
      exact Finset.Ico_disjoint_Ico_consecutive _ _ _)]
    have hA : (if fp ≠ 0 then _popcnt (wordAt ws fi >>> fp) else 0)
        = ((Finset.Ico (fi * D + fp) (mi * D)).filter fun n => bitGet D ws n = true).card := by
      by_cases h : fp = 0
      · rw [if_neg (by simpa using h), hmi, if_neg (by simpa using h), h]
        simp
      · rw [if_pos h, hmi, if_pos h]
        have h1 : (fi + 1) * D = fi * D + D := by ring
        rw [h1, naive_word D hD ws fi fp D le_rfl,
          popcnt_suffix (wordAt_lt hwf fi) fp (by omega)]
    have hB : popcntSum ws mi li
        = ((Finset.Ico (mi * D) (li * D)).filter fun x => bitGet D ws x = true).card :=
      (naive_words D hD ws hwf (li - mi) mi li (by omega) hmi_le).symm
    have hC : (if lp ≠ 0 then _popcnt ((wordAt ws li <<< (D - lp)) % 2 ^ D) else 0)
        = ((Finset.Ico (li * D) (li * D + lp)).filter fun n => bitGet D ws n = true).card := by
      by_cases h : lp = 0
      · rw [if_neg (by simpa using h), h]
        simp
      · rw [if_pos h]
        have h2 := naive_word D hD ws li 0 lp (by omega)
        rw [Nat.add_zero] at h2
        rw [popcnt_low_field hD (wordAt_lt hwf li) lp (by omega)]
        exact h2.symm
    rw [hA, hB, hC]

theorem naiveCount_le (D : Nat) (ws : List Nat) (a b : Nat) (v : Bool) :
    naiveCount D ws a b v ≤ b - a := by
  unfold naiveCount
  calc ((Finset.Ico a b).filter fun n => bitGet D ws n = v).card
      ≤ (Finset.Ico a b).card := Finset.card_filter_le _ _
    _ = b - a := Nat.card_Ico a b

theorem naiveCount_add (D : Nat) (ws : List Nat) (a b : Nat) (hab : a ≤ b) :
    naiveCount D ws a b true + naiveCount D ws a b false = b - a := by
  unfold naiveCount
  have h : ((Finset.Ico a b).filter fun n => bitGet D ws n = false)
      = (Finset.Ico a b).filter fun n => ¬bitGet D ws n = true := by
    apply Finset.filter_congr
    intro x hx
    simp
  rw [h, Finset.filter_card_add_filter_neg_card_eq_card, Nat.card_Ico]

/-- Both bit values: `count` equals the naive per-bit loop. -/
theorem count_eq_naive (D : Nat) (hD : 0 < D) (ws : List Nat)
    (hwf : ∀ w ∈ ws, w < 2 ^ D) (fi fp li lp : Nat)
    (hfp : fp < D) (hlp : lp < D) (hle : fi * D + fp ≤ li * D + lp) (v : Bool) :
    count D ws fi fp li lp v = (naiveCount D ws (fi * D + fp) (li * D + lp) v : Int) := by
  have htrue := countOnes_eq_naive D hD ws hwf fi fp li lp hfp hlp hle
  have hadd := naiveCount_add D ws (fi * D + fp) (li * D + lp) hle
  have hones_le := naiveCount_le D ws (fi * D + fp) (li * D + lp) true
  have hdist : ((li : Int) - fi) * D + ((lp : Int) - fp)
      = ((li * D + lp : Nat) : Int) - ((fi * D + fp : Nat) : Int) := by
    push_cast
    ring
  cases v
  · unfold count
    simp only [Bool.false_eq_true, if_false]
    rw [htrue, hdist]
    omega
  · unfold count
    rw [if_pos (by trivial), htrue]

/-- The two counts of a range sum to its length. -/
theorem count_add_count (D : Nat) (hD : 0 < D) (ws : List Nat)
    (hwf : ∀ w ∈ ws, w < 2 ^ D) (fi fp li lp : Nat)
    (hfp : fp < D) (hlp : lp < D) (hle : fi * D + fp ≤ li * D + lp) (v : Bool) :
    count D ws fi fp li lp v + count D ws fi fp li lp (!v)
      = ((li * D + lp : Nat) : Int) - ((fi * D + fp : Nat) : Int) := by
  have h1 := count_eq_naive D hD ws hwf fi fp li lp hfp hlp hle true
  have h2 := count_eq_naive D hD ws hwf fi fp li lp hfp hlp hle false
  have hadd := naiveCount_add D ws (fi * D + fp) (li * D + lp) hle
  cases v <;> simp only [Bool.not_false, Bool.not_true] <;> rw [h1, h2] <;> omega

/-! ## Bit reversal: the specification-side `natBitRev` -/

theorem natBitRev_lt (d x : Nat) : natBitRev d x < 2 ^ d := by
  induction d generalizing x with
  | zero =>
    rw [natBitRev]
    norm_num
  | succ d ih =>
    rw [natBitRev, pow_succ]
    have h1 : natBitRev d (x / 2) < 2 ^ d := ih (x / 2)
    have h2 : x % 2 ≤ 1 := by omega
    nlinarith

theorem testBit_add_low {A b d : Nat} (hA : A < 2 ^ d) (v : Nat) (hv : v < d) :
    (A + b * 2 ^ d).testBit v = A.testBit v := by
  have h1 : (A + b * 2 ^ d) % 2 ^ d = A := by
    rw [Nat.add_mul_mod_self_right, Nat.mod_eq_of_lt hA]
  have h2 := Nat.testBit_mod_two_pow (A + b * 2 ^ d) d v
  rw [h1] at h2
  rw [h2]
  simp [hv]

theorem testBit_add_high {A b d : Nat} (hA : A < 2 ^ d) (v : Nat) (hv : d ≤ v) :
    (A + b * 2 ^ d).testBit v = b.testBit (v - d) := by
  have h1 : (A + b * 2 ^ d) >>> d = b := by
    rw [Nat.shiftRight_eq_div_pow, Nat.add_mul_div_right _ _ (Nat.pos_pow_of_pos d (by norm_num)),
      Nat.div_eq_of_lt hA, Nat.zero_add]
  have h2 := Nat.testBit_shiftRight (A + b * 2 ^ d) (i := d) (j := v - d)
  rw [h1] at h2
  have e : v = d + (v - d) := by omega
  conv_lhs => rw [e]
  exact h2.symm

theorem natBitRev_testBit (d x v : Nat) :
    (natBitRev d x).testBit v = (decide (v < d) && x.testBit (d - 1 - v)) := by
  induction d generalizing x v with
  | zero =>
    rw [natBitRev]
    simp [Nat.zero_testBit]
  | succ d ih =>
    rw [natBitRev]
    by_cases hv : v < d
    · rw [testBit_add_low (natBitRev_lt d (x / 2)) v hv, ih]
      have e1 : decide (v < d) = true := by simp [hv]
      have e2 : decide (v < d + 1) = true := by simp; omega
      rw [e1, e2]
      have e3 : d - 1 - v + 1 = d + 1 - 1 - v := by omega
      rw [Bool.true_and, Bool.true_and, ← e3, Nat.testBit_succ]
    · rw [testBit_add_high (natBitRev_lt d (x / 2)) v (by omega)]
      by_cases hv2 : v = d
      · subst hv2
        have e1 : v - v = 0 := by omega
        have e2 : v + 1 - 1 - v = 0 := by omega
        rw [e1, e2]
        have e3 : decide (v < v + 1) = true := by simp
        rw [e3, Bool.true_and, Nat.testBit_zero, Nat.testBit_zero]
        rcases Nat.mod_two_eq_zero_or_one x with h | h <;> simp [h]
      · have hgt : d < v := by omega
        have e1 : decide (v < d + 1) = false := by simp; omega
        rw [e1, Bool.false_and]
        apply testBit_ge (n := 1)
        · omega
        · omega

/-! ## Bit reversal: the linear fallback -/

theorem size_shiftRight_le {s : Nat} (h : s ≠ 0) : (s >>> 1).size ≤ s.size - 1 := by
  have h1 : 0 < s.size := Nat.size_pos.mpr (Nat.pos_of_ne_zero h)
  rw [Nat.size_le, Nat.shiftRight_one]
  have h2 : s < 2 ^ s.size := Nat.lt_size_self s
  have h3 : 2 ^ s.size = 2 ^ (s.size - 1) * 2 := by
    rw [← pow_succ]
    congr 1
    omega
  omega

theorem _bitswap_lin_go_zero (D dst i : Nat) :
    _bitswap_lin_go D dst 0 i = (dst <<< i) % 2 ^ D := by
  rw [_bitswap_lin_go]
  simp

theorem _bitswap_lin_go_ne (D dst s i : Nat) (h : s ≠ 0) :
    _bitswap_lin_go D dst s i
      = _bitswap_lin_go D (((dst <<< 1) % 2 ^ D) ||| (s &&& 1)) (s >>> 1) (i - 1) := by
  rw [_bitswap_lin_go]
  simp [h]

theorem lin_go_testBit (D : Nat) (hD : 0 < D) :
    ∀ s dst i, s.size ≤ i →
    ∀ v, (_bitswap_lin_go D dst s i).testBit v
      = (decide (v < D) && (if v < i then s.testBit (i - 1 - v) else dst.testBit (v - i))) := by
  intro s
  induction s using Nat.strong_induction_on with
  | _ s ih =>
    intro dst i hsize v
    by_cases hs : s = 0
    · subst hs
      rw [_bitswap_lin_go_zero]
      rw [Nat.testBit_mod_two_pow, Nat.testBit_shiftLeft]
      by_cases hv : v < i
      · have e1 : decide (i ≤ v) = false := by simp; omega
        rw [e1]
        simp [hv, Nat.zero_testBit]
      · have e1 : decide (i ≤ v) = true := by simp; omega
        rw [e1]
        simp [hv]
    · have hpos : 0 < s.size := Nat.size_pos.mpr (Nat.pos_of_ne_zero hs)
      have hi : 1 ≤ i := by omega
      have hlt : s >>> 1 < s := by
        rw [Nat.shiftRight_one]
        exact Nat.div_lt_self (Nat.pos_of_ne_zero hs) one_lt_two
      have hsz : (s >>> 1).size ≤ i - 1 := by
        have := size_shiftRight_le hs
        omega
      rw [_bitswap_lin_go_ne D dst s i hs,
        ih (s >>> 1) hlt (((dst <<< 1) % 2 ^ D) ||| (s &&& 1)) (i - 1) hsz v]
      by_cases hv1 : v < i - 1
      · rw [if_pos hv1, if_pos (by omega)]
        congr 1
        rw [Nat.testBit_shiftRight]
        congr 1
        omega
      · rw [if_neg hv1]
        rw [Nat.testBit_or, Nat.testBit_mod_two_pow, Nat.testBit_shiftLeft]
        by_cases hv2 : v = i - 1
        · rw [if_pos (by omega)]
          have e0 : v - (i - 1) = 0 := by omega
          have e1 : i - 1 - v = 0 := by omega
          rw [e0, e1]
          have e2 : decide (1 ≤ (0 : Nat)) = false := by simp
          rw [e2]
          have hand : s &&& 1 = s % 2 := Nat.and_one_is_mod s
          rw [hand]
          simp only [Bool.and_false, Bool.false_and, Bool.false_or]
          rw [Nat.testBit_zero, Nat.testBit_zero]
          have e3 : s % 2 % 2 = s % 2 := by omega
          rw [e3]
        · have hvi : i ≤ v := by omega
          rw [if_neg (by omega)]
          have e1 : v - (i - 1) = v - i + 1 := by omega
          rw [e1]
          have e2 : (s &&& 1).testBit (v - i + 1) = false := by
            apply testBit_ge (n := 1)
            · have := Nat.and_le_right (n := s) (m := 1)
              omega
            · omega
          rw [e2, Bool.or_false]
          have e3 : decide (1 ≤ v - i + 1) = true := by simp
          rw [e3]
          have e4 : v - i + 1 - 1 = v - i := by omega
          rw [e4]
          by_cases hvD : v < D
          · have e5 : decide (v - i + 1 < D) = true := by simp; omega
            rw [e5]
            simp [hvD]
          · have e5 : decide (v < D) = false := by simp [hvD]
            rw [e5]
            simp

/-- The linear fallback of `_bitswap` reverses the low `D` bits. -/
theorem bitswap_lin_eq {D src : Nat} (hD : 0 < D) (hsrc : src < 2 ^ D) :
    _bitswap_lin_go D src (src >>> 1) (D - 1) = natBitRev D src := by
  have hsz : (src >>> 1).size ≤ D - 1 := by
    by_cases h : src = 0
    · subst h
      simp [Nat.size_le]
    · have h1 := size_shiftRight_le h
      have h2 : src.size ≤ D := Nat.size_le.mpr hsrc
      omega
  apply Nat.eq_of_testBit_eq
  intro v
  rw [lin_go_testBit D hD (src >>> 1) src (D - 1) hsz v, natBitRev_testBit]
  by_cases hvD : v < D
  · have e1 : decide (v < D) = true := by simp [hvD]
    rw [e1, Bool.true_and, Bool.true_and]
    by_cases hv : v < D - 1
    · rw [if_pos hv, Nat.testBit_shiftRight]
      congr 1
      omega
    · rw [if_neg hv]
      congr 1
      omega
  · have e1 : decide (v < D) = false := by simp [hvD]
    rw [e1, Bool.false_and, Bool.false_and]

/-! ## Bit reversal: the power of two halve-and-swap path -/

theorem msk_step_arith (c v : Nat) (hc : 0 < c) :
    (Bool.xor (decide (v / (2 * c) % 2 = 0))
      (decide (c ≤ v) && decide ((v - c) / (2 * c) % 2 = 0)))
    = decide (v / c % 2 = 0) := by
  set q := v / (2 * c) with hq
  set s := v % (2 * c) with hs
  have hv : 2 * c * q + s = v := Nat.div_add_mod v (2 * c)
  have hslt : s < 2 * c := Nat.mod_lt v (by omega)
  have hvc : v / c = 2 * q + s / c := by
    have hx : c * (2 * q) + s = v := by
      have hy : c * (2 * q) = 2 * c * q := by ring
      omega
    rw [← hx, Nat.mul_add_div hc]
  by_cases hsc : s < c
  · have hsc0 : s / c = 0 := Nat.div_eq_of_lt hsc
    have hrhs : v / c % 2 = 0 := by omega
    rw [decide_eq_true hrhs]
    by_cases hq0 : q = 0
    · rw [hq0, Nat.mul_zero, Nat.zero_add] at hv
      have hle : ¬c ≤ v := by omega
      rw [decide_eq_true (show v / (2 * c) % 2 = 0 by rw [← hq, hq0])]
      rw [decide_eq_false hle]
      simp
    · have hle : c ≤ v := by
        have h1 : 1 ≤ q := by omega
        have h2 : 2 * c * 1 ≤ 2 * c * q := by
          apply Nat.mul_le_mul_left
          omega
        omega
      have hsub : (v - c) / (2 * c) = q - 1 := by
        rw [show v - c = 2 * c * (q - 1) + (c + s) by
          have h2 : 2 * c * q = 2 * c * (q - 1) + 2 * c := by
            rw [← Nat.mul_succ]
            congr 1
            omega
          omega]
        rw [Nat.mul_add_div (by omega), Nat.div_eq_of_lt (by omega), Nat.add_zero]
      rw [decide_eq_true hle, hsub]
      by_cases hpar : q % 2 = 0
      · rw [decide_eq_true (show v / (2 * c) % 2 = 0 by omega)]
        rw [decide_eq_false (show ¬(q - 1) % 2 = 0 by omega)]
        simp
      · rw [decide_eq_false (show ¬v / (2 * c) % 2 = 0 by omega)]
        rw [decide_eq_true (show (q - 1) % 2 = 0 by omega)]
        simp
  · have hsc1 : s / c = 1 := by
      have h1 : 1 ≤ s / c := (Nat.le_div_iff_mul_le hc).mpr (by omega)
      have h2 : s / c < 2 := by
        rw [Nat.div_lt_iff_lt_mul hc]
        omega
      omega
    have hrhs : ¬v / c % 2 = 0 := by omega
    rw [decide_eq_false hrhs]
    have hle : c ≤ v := by omega
    have hsub : (v - c) / (2 * c) = q := by
      rw [show v - c = 2 * c * q + (s - c) by omega]
      rw [Nat.mul_add_div (by omega), Nat.div_eq_of_lt (by omega), Nat.add_zero]
    rw [decide_eq_true hle, hsub]
    simp

theorem msk_go_spec (D : Nat) (hD : 0 < D) :
    ∀ fuel i j msk, j ≤ i → i - j ≤ fuel →
    (∀ v, msk.testBit v = (decide (v < D) && decide (v / 2 ^ i % 2 = 0))) →
    ∀ v, (_bitswap_msk_go D (2 ^ j) fuel (2 ^ i) msk).testBit v
      = (decide (v < D) && decide (v / 2 ^ j % 2 = 0)) := by
  intro fuel
  induction fuel with
  | zero =>
    intro i j msk hji hfuel hinv v
    have : i = j := by omega
    subst this
    rw [_bitswap_msk_go]
    exact hinv v
  | succ fuel ih =>
    intro i j msk hji hfuel hinv v
    rw [_bitswap_msk_go]
    by_cases heq : 2 ^ i = 2 ^ j
    · have : i = j := Nat.pow_right_injective (by norm_num) heq
      subst this
      rw [if_pos rfl]
      exact hinv v
    · rw [if_neg heq]
      have hij : j < i := by
        rcases Nat.lt_or_ge j i with h | h
        · exact h
        · have : i = j := by omega
          exact absurd (by rw [this]) heq
      have hhalf : 2 ^ i / 2 = 2 ^ (i - 1) := by
        rw [show (2 : Nat) ^ i = 2 ^ (i - 1) * 2 by
          rw [← pow_succ]
          congr 1
          omega]
        exact Nat.mul_div_cancel _ (by norm_num)
      rw [hhalf]
      apply ih (i - 1) j _ (by omega) (by omega)
      intro u
      rw [Nat.testBit_xor, Nat.testBit_mod_two_pow, Nat.testBit_shiftLeft, hinv u]
      by_cases huD : u < D
      · rw [decide_eq_true huD, Bool.true_and, Bool.true_and]
        have harith := msk_step_arith (2 ^ (i - 1)) u (Nat.pos_pow_of_pos _ (by norm_num))
        have h2c : 2 * 2 ^ (i - 1) = 2 ^ i := by
          rw [mul_comm, ← pow_succ]
          congr 1
          omega
        rw [h2c] at harith
        rw [← harith]
        congr 1
        by_cases hle : 2 ^ (i - 1) ≤ u
        · rw [decide_eq_true hle, Bool.true_and, Bool.true_and, hinv (u - 2 ^ (i - 1))]
          rw [decide_eq_true (show u - 2 ^ (i - 1) < D by omega), Bool.true_and]
        · rw [decide_eq_false hle]
          simp
      · rw [decide_eq_false huD]
        simp only [Bool.false_and, Bool.and_false]
        rfl

theorem msk_spec (K j : Nat) (hj : j ≤ K) (v : Nat) :
    (_bitswap_msk (2 ^ K) (2 ^ j)).testBit v
      = (decide (v < 2 ^ K) && decide (v / 2 ^ j % 2 = 0)) := by
  unfold _bitswap_msk
  have hK : K ≤ 2 ^ K := Nat.le_of_lt (Nat.lt_two_pow K)
  apply msk_go_spec (2 ^ K) (Nat.pos_pow_of_pos _ (by norm_num)) (2 ^ K) K j _ hj (by omega)
  intro u
  rw [Nat.testBit_two_pow_sub_one]
  by_cases huD : u < 2 ^ K
  · rw [decide_eq_true huD, Bool.true_and, decide_eq_true (show u / 2 ^ K % 2 = 0 by
      rw [Nat.div_eq_of_lt huD])]
  · rw [decide_eq_false huD]
    simp

theorem _bitswap_rec_eq (D N src : Nat) :
    _bitswap_rec D N src =
      if 1 < N / 2 then _bitswap_rec D (N / 2) (bitswapLevel D (N / 2) src)
      else bitswapLevel D (N / 2) src := by
  rw [_bitswap_rec]
  by_cases h : 1 < N / 2 <;> simp [h, bitswapLevel]

theorem msk_go_lt (D : Nat) :
    ∀ fuel N cnt msk, msk < 2 ^ D → _bitswap_msk_go D N fuel cnt msk < 2 ^ D := by
  intro fuel
  induction fuel with
  | zero =>
    intro N cnt msk hm
    rw [_bitswap_msk_go]
    exact hm
  | succ fuel ih =>
    intro N cnt msk hm
    rw [_bitswap_msk_go]
    by_cases h : cnt = N
    · rw [if_pos h]
      exact hm
    · rw [if_neg h]
      exact ih N (cnt / 2) _ (Nat.xor_lt_two_pow hm (mod_two_pow_lt _ _))

theorem _bitswap_msk_lt (D N : Nat) (hD : 0 < D) : _bitswap_msk D N < 2 ^ D := by
  unfold _bitswap_msk
  apply msk_go_lt
  have : (1 : Nat) ≤ 2 ^ D := Nat.one_le_two_pow
  omega

theorem bitswapLevel_lt (D cnt src : Nat) (hD : 0 < D) : bitswapLevel D cnt src < 2 ^ D := by
  unfold bitswapLevel
  exact Nat.or_lt_two_pow (and_lt_two_pow_right (_bitswap_msk_lt D cnt hD) _)
    (and_lt_two_pow_left (mod_two_pow_lt _ _) _)

theorem _bitswap_rec_lt (D : Nat) (hD : 0 < D) :
    ∀ N src, _bitswap_rec D N src < 2 ^ D := by
  intro N
  induction N using Nat.strong_induction_on with
  | _ N ih =>
    intro src
    rw [_bitswap_rec_eq]
    by_cases h : 1 < N / 2
    · rw [if_pos h]
      exact ih (N / 2) (Nat.div_lt_self (by omega) one_lt_two) _
    · rw [if_neg h]
      exact bitswapLevel_lt D (N / 2) src hD

theorem bitswapLevel_testBit (K j : Nat) (hj : j ≤ K) (src : Nat) (hsrc : src < 2 ^ 2 ^ K)
    (u : Nat) (hu : u < 2 ^ K) :
    (bitswapLevel (2 ^ K) (2 ^ j) src).testBit u
      = if u / 2 ^ j % 2 = 0 then src.testBit (u + 2 ^ j) else src.testBit (u - 2 ^ j) := by
  unfold bitswapLevel
  rw [Nat.testBit_or, Nat.testBit_and, Nat.testBit_and, Nat.testBit_xor,
    Nat.testBit_mod_two_pow, Nat.testBit_shiftLeft, Nat.testBit_shiftRight,
    Nat.testBit_two_pow_sub_one, msk_spec K j hj u]
  rw [decide_eq_true hu]
  simp only [Bool.true_and, Bool.true_xor]
  by_cases hpar : u / 2 ^ j % 2 = 0
  · rw [if_pos hpar, decide_eq_true hpar]
    simp only [Bool.and_true, Bool.not_true, Bool.and_false, Bool.or_false]
    congr 1
    omega
  · rw [if_neg hpar, decide_eq_false hpar]
    simp only [Bool.and_false, Bool.not_false, Bool.and_true, Bool.false_or]
    have hge : 2 ^ j ≤ u := by
      by_contra hcon
      exact hpar (by rw [Nat.div_eq_of_lt (by omega)])
    rw [decide_eq_true hge]
    simp

theorem rec_index_arith (c v : Nat) (hc : 0 < c) :
    (v / c % 2 = 0 →
      v / c * c + (c - 1 - v % c) + c = v / (2 * c) * (2 * c) + (2 * c - 1 - v % (2 * c)))
    ∧ (v / c % 2 = 1 →
      v / c * c + (c - 1 - v % c) - c = v / (2 * c) * (2 * c) + (2 * c - 1 - v % (2 * c))) := by
  set Q := v / (2 * c) with hQ
  set S := v % (2 * c) with hS
  have hv : 2 * c * Q + S = v := Nat.div_add_mod v (2 * c)
  have hSlt : S < 2 * c := Nat.mod_lt v (by omega)
  have hvc : v / c = 2 * Q + S / c := by
    have hx : c * (2 * Q) + S = v := by
      have hy : c * (2 * Q) = 2 * c * Q := by ring
      omega
    rw [← hx, Nat.mul_add_div hc]
  have hvm : v % c = S % c := by
    have hx : c * (2 * Q) + S = v := by
      have hy : c * (2 * Q) = 2 * c * Q := by ring
      omega
    rw [← hx, Nat.mul_add_mod]
  have hatom1 : v / c * c = 2 * (Q * c) + S / c * c := by
    rw [hvc]
    ring
  have hatom2 : Q * (2 * c) = 2 * (Q * c) := by ring
  by_cases hsc : S < c
  · have hsc0 : S / c = 0 := Nat.div_eq_of_lt hsc
    have hscm : S % c = S := Nat.mod_eq_of_lt hsc
    constructor
    · intro hpar
      rw [hatom1, hatom2, hsc0, hvm, hscm]
      omega
    · intro hpar
      rw [hvc, hsc0] at hpar
      omega
  · have hsc1 : S / c = 1 := by
      have h1 : 1 ≤ S / c := (Nat.le_div_iff_mul_le hc).mpr (by omega)
      have h2 : S / c < 2 := by
        rw [Nat.div_lt_iff_lt_mul hc]
        omega
      omega
    have hscm : S % c = S - c := by
      have h := Nat.add_mod_left c (S - c)
      rw [show c + (S - c) = S by omega] at h
      rw [h, Nat.mod_eq_of_lt (by omega)]
    constructor
    · intro hpar
      rw [hvc, hsc1] at hpar
      omega
    · intro hpar
      rw [hatom1, hatom2, hsc1, hvm, hscm]
      omega

theorem rec_spec (K : Nat) :
    ∀ j, 1 ≤ j → j ≤ K → ∀ src, src < 2 ^ 2 ^ K → ∀ v, v < 2 ^ K →
    (_bitswap_rec (2 ^ K) (2 ^ j) src).testBit v
      = src.testBit (v / 2 ^ j * 2 ^ j + (2 ^ j - 1 - v % 2 ^ j)) := by
  intro j
  induction j with
  | zero =>
    intro h
    omega
  | succ j ih =>
    intro h1 hK src hsrc v hv
    have hcnt : 2 ^ (j + 1) / 2 = 2 ^ j := by
      rw [pow_succ]
      exact Nat.mul_div_cancel _ (by norm_num)
    have hc : (0 : Nat) < 2 ^ j := Nat.pos_pow_of_pos _ (by norm_num)
    have h2c : (2 : Nat) ^ (j + 1) = 2 * 2 ^ j := by
      rw [pow_succ]
      ring
    by_cases hj0 : j = 0
    · subst hj0
      rw [_bitswap_rec_eq, hcnt, if_neg (by norm_num)]
      rw [bitswapLevel_testBit K 0 (by omega) src hsrc v hv]
      simp only [pow_zero, Nat.div_one]
      rw [show (2 : Nat) ^ (0 + 1) = 2 by norm_num]
      rcases Nat.mod_two_eq_zero_or_one v with hpar | hpar
      · rw [if_pos hpar]
        congr 1
        omega
      · rw [if_neg (by omega)]
        congr 1
        omega
    · have hj1 : 1 ≤ j := by omega
      rw [_bitswap_rec_eq, hcnt, if_pos (by
        calc 1 < 2 ^ 1 := by norm_num
          _ ≤ 2 ^ j := Nat.pow_le_pow_right (by norm_num) hj1)]
      have hlev_lt : bitswapLevel (2 ^ K) (2 ^ j) src < 2 ^ 2 ^ K :=
        bitswapLevel_lt _ _ _ (Nat.pos_pow_of_pos _ (by norm_num))
      rw [ih hj1 (by omega) _ hlev_lt v hv]
      set u := v / 2 ^ j * 2 ^ j + (2 ^ j - 1 - v % 2 ^ j) with hu_def
      have hmod_lt : 2 ^ j - 1 - v % 2 ^ j < 2 ^ j := by omega
      have hu_div : u / 2 ^ j = v / 2 ^ j := mulDivHelper _ _ _ hc hmod_lt
      have huK : u < 2 ^ K := by
        have hdiv_lt : v / 2 ^ j < 2 ^ (K - j) := by
          rw [Nat.div_lt_iff_lt_mul hc, ← pow_add]
          rw [show K - j + j = K by omega]
          exact hv
        have : u < (v / 2 ^ j + 1) * 2 ^ j := by
          have he : (v / 2 ^ j + 1) * 2 ^ j = v / 2 ^ j * 2 ^ j + 2 ^ j := by ring
          omega
        calc u < (v / 2 ^ j + 1) * 2 ^ j := this
          _ ≤ 2 ^ (K - j) * 2 ^ j := Nat.mul_le_mul_right _ (by omega)
          _ = 2 ^ K := by
            rw [← pow_add]
            congr 1
            omega
      rw [bitswapLevel_testBit K j (by omega) src hsrc u huK, hu_div]
      have harith := rec_index_arith (2 ^ j) v hc
      rcases Nat.mod_two_eq_zero_or_one (v / 2 ^ j) with hpar | hpar
      · rw [if_pos hpar]
        congr 1
        have := harith.1 hpar
        rw [h2c]
        omega
      · rw [if_neg (by omega)]
        congr 1
        have := harith.2 hpar
        rw [h2c]
        omega

/-! ## Population count characterizes powers of two -/

theorem _popcnt_eq_zero_iff : ∀ x : Nat, _popcnt x = 0 ↔ x = 0 := by
  intro x
  induction x using Nat.strong_induction_on with
  | _ x ih =>
    constructor
    · intro h
      by_contra hx
      rw [_popcnt_ne x hx] at h
      have h1 : x &&& 1 = 0 := by omega
      have h2 : _popcnt (x >>> 1) = 0 := by omega
      have h3 : x >>> 1 < x := by
        rw [Nat.shiftRight_one]
        exact Nat.div_lt_self (Nat.pos_of_ne_zero hx) one_lt_two
      have h4 : x >>> 1 = 0 := (ih (x >>> 1) h3).mp h2
      rw [Nat.and_one_is_mod] at h1
      rw [Nat.shiftRight_one] at h4
      omega
    · intro h
      subst h
      exact _popcnt_zero

theorem pow2_of_popcnt_one : ∀ x : Nat, _popcnt x = 1 → ∃ k, x = 2 ^ k := by
  intro x
  induction x using Nat.strong_induction_on with
  | _ x ih =>
    intro h
    have hx : x ≠ 0 := by
      intro hx
      rw [hx, _popcnt_zero] at h
      omega
    rw [_popcnt_ne x hx] at h
    have hand : x &&& 1 = x % 2 := Nat.and_one_is_mod x
    have hlt : x >>> 1 < x := by
      rw [Nat.shiftRight_one]
      exact Nat.div_lt_self (Nat.pos_of_ne_zero hx) one_lt_two
    rcases Nat.mod_two_eq_zero_or_one x with hpar | hpar
    · have h2 : _popcnt (x >>> 1) = 1 := by omega
      obtain ⟨k, hk⟩ := ih (x >>> 1) hlt h2
      refine ⟨k + 1, ?_⟩
      rw [Nat.shiftRight_one] at hk
      rw [pow_succ]
      omega
    · have h2 : _popcnt (x >>> 1) = 0 := by omega
      have h3 : x >>> 1 = 0 := (_popcnt_eq_zero_iff _).mp h2
      refine ⟨0, ?_⟩
      rw [Nat.shiftRight_one] at h3
      simp
      omega

/-! ## The byte trick and the full `_bitswap` -/

set_option maxRecDepth 100000 in
theorem bitswap_byte_eq : ∀ src < 256, _bitswap 8 src = natBitRev 8 src := by
  decide

/-- The word bit swap reverses the low `D` bits, whatever strategy the
dispatch selects. -/
theorem _bitswap_eq {D src : Nat} (hD : 0 < D) (hsrc : src < 2 ^ D) :
    _bitswap D src = natBitRev D src := by
  by_cases h8 : D = 8
  · subst h8
    exact bitswap_byte_eq src (by norm_num at hsrc ⊢; omega)
  · rw [_bitswap, if_neg h8]
    by_cases hpow : _popcnt D = 1
    · rw [if_pos hpow]
      obtain ⟨K, rfl⟩ := pow2_of_popcnt_one D hpow
      by_cases hK0 : K = 0
      · subst hK0
        simp only [pow_zero] at hsrc ⊢
        interval_cases src <;> rw [_bitswap_rec_eq] <;> decide
      · have hK1 : 1 ≤ K := by omega
        apply Nat.eq_of_testBit_eq
        intro v
        by_cases hv : v < 2 ^ K
        · rw [rec_spec K K hK1 le_rfl src hsrc v hv, natBitRev_testBit,
            decide_eq_true hv, Bool.true_and]
          congr 1
          have h1 : v / 2 ^ K = 0 := Nat.div_eq_of_lt hv
          have h2 : v % 2 ^ K = v := Nat.mod_eq_of_lt hv
          rw [h1, h2]
          omega
        · rw [testBit_ge (_bitswap_rec_lt _ (Nat.pos_pow_of_pos _ (by norm_num)) _ _) (by omega),
            testBit_ge (natBitRev_lt _ _) (by omega)]
    · rw [if_neg hpow]
      exact bitswap_lin_eq hD hsrc

theorem _bitswap_lt {D src : Nat} (hD : 0 < D) (hsrc : src < 2 ^ D) :
    _bitswap D src < 2 ^ D := by
  rw [_bitswap_eq hD hsrc]
  exact natBitRev_lt D src

theorem _bitswap_testBit {D src : Nat} (hD : 0 < D) (hsrc : src < 2 ^ D) (v : Nat) (hv : v < D) :
    (_bitswap D src).testBit v = src.testBit (D - 1 - v) := by
  rw [_bitswap_eq hD hsrc, natBitRev_testBit, decide_eq_true hv, Bool.true_and]

/-! ## Bit-level characterizations of the double shifts and the blend -/

theorem _shld_testBit {D dst src g : Nat} (hg1 : 0 < g) (hg : g < D) (hsrc : src < 2 ^ D)
    {r : Nat} (hr : r < D) :
    (_shld D dst src g).testBit r
      = if g ≤ r then dst.testBit (r - g) else src.testBit (D - g + r) := by
  unfold _shld
  rw [if_pos hg, Nat.testBit_or, Nat.testBit_mod_two_pow, Nat.testBit_shiftLeft,
    Nat.testBit_shiftRight]
  by_cases hgr : g ≤ r
  · rw [if_pos hgr]
    have h2 : src.testBit (D - g + r) = false := testBit_ge hsrc (by omega)
    rw [h2, decide_eq_true hr, decide_eq_true hgr]
    simp
  · rw [if_neg hgr, decide_eq_false hgr]
    simp

theorem _shrd_testBit {D dst src g : Nat} (hg1 : 0 < g) (hg : g < D) (hdst : dst < 2 ^ D)
    {r : Nat} (hr : r < D) :
    (_shrd D dst src g).testBit r
      = if r < D - g then dst.testBit (r + g) else src.testBit (r - (D - g)) := by
  unfold _shrd
  rw [if_pos hg, Nat.testBit_or, Nat.testBit_mod_two_pow, Nat.testBit_shiftLeft,
    Nat.testBit_shiftRight]
  by_cases hrg : r < D - g
  · rw [if_pos hrg, decide_eq_false (show ¬D - g ≤ r by omega)]
    rw [show g + r = r + g by omega]
    simp
  · rw [if_neg hrg]
    have h2 : dst.testBit (g + r) = false := testBit_ge hdst (by omega)
    rw [h2, decide_eq_true hr, decide_eq_true (show D - g ≤ r by omega)]
    simp

theorem shiftRight_le_self (x k : Nat) : x >>> k ≤ x := by
  rw [Nat.shiftRight_eq_div_pow]
  exact Nat.div_le_self _ _

theorem _shld_lt {D dst src cnt : Nat} (hsrc : src < 2 ^ D) :
    _shld D dst src cnt < 2 ^ D := by
  unfold _shld
  by_cases h : cnt < D
  · rw [if_pos h]
    apply Nat.or_lt_two_pow (mod_two_pow_lt _ _)
    calc src >>> (D - cnt) ≤ src := shiftRight_le_self _ _
      _ < 2 ^ D := hsrc
  · rw [if_neg h]
    by_cases h2 : cnt < D + D
    · rw [if_pos h2, Nat.mul_one]
      exact mod_two_pow_lt _ _
    · rw [if_neg h2, Nat.mul_zero]
      exact Nat.pos_pow_of_pos _ (by norm_num)

theorem _shrd_lt {D dst src cnt : Nat} (hdst : dst < 2 ^ D) (hsrc : src < 2 ^ D) :
    _shrd D dst src cnt < 2 ^ D := by
  unfold _shrd
  by_cases h : cnt < D
  · rw [if_pos h]
    apply Nat.or_lt_two_pow _ (mod_two_pow_lt _ _)
    calc dst >>> cnt ≤ dst := shiftRight_le_self _ _
      _ < 2 ^ D := hdst
  · rw [if_neg h]
    by_cases h2 : cnt < D + D
    · rw [if_pos h2, Nat.mul_one]
      calc src >>> (cnt - D) ≤ src := shiftRight_le_self _ _
        _ < 2 ^ D := hsrc
    · rw [if_neg h2, Nat.mul_zero]
      exact Nat.pos_pow_of_pos _ (by norm_num)

theorem _bitblend_testBit {D s0 s1 start len : Nat} (hstart : start < D) (hlen : len < D)
    {v : Nat} (hv : v < D) :
    (_bitblend D s0 s1 start len).testBit v
      = if start ≤ v ∧ v < start + len then s1.testBit v else s0.testBit v := by
  have h3 : (1 : Nat) ≤ 2 ^ len := Nat.one_le_two_pow
  have h4 : (1 : Nat) ≤ 2 ^ D := Nat.one_le_two_pow
  have h5 : 2 ^ len < 2 ^ D := Nat.pow_lt_pow_right (by norm_num) hlen
  simp only [_bitblend, if_pos hlen, if_pos hstart, Nat.mul_one]
  rw [show (1 : Nat) <<< len = 2 ^ len by rw [Nat.shiftLeft_eq, Nat.one_mul]]
  rw [show 2 ^ len + (2 ^ D - 1) = 2 ^ D + (2 ^ len - 1) by omega,
    Nat.add_mod_left, Nat.mod_eq_of_lt (show 2 ^ len - 1 < 2 ^ D by omega)]
  rw [Nat.testBit_xor, Nat.testBit_and, Nat.testBit_xor, Nat.testBit_mod_two_pow,
    Nat.testBit_shiftLeft, Nat.testBit_two_pow_sub_one]
  by_cases hin : start ≤ v ∧ v < start + len
  · rw [if_pos hin]
    rw [decide_eq_true hv, decide_eq_true hin.1, decide_eq_true (show v - start < len by omega)]
    simp only [Bool.true_and, Bool.and_true]
    cases s0.testBit v <;> cases s1.testBit v <;> rfl
  · rw [if_neg hin]
    have hfalse : (decide (v < D) && (decide (v ≥ start) && decide (v - start < len))) = false := by
      rcases Nat.lt_or_ge v start with h | h
      · rw [decide_eq_false (show ¬v ≥ start by omega)]
        simp
      · rw [decide_eq_false (show ¬v - start < len by omega)]
        simp
    rw [hfalse]
    simp

theorem _bitblend_lt {D s0 s1 start len : Nat} (h0 : s0 < 2 ^ D) :
    _bitblend D s0 s1 start len < 2 ^ D := by
  unfold _bitblend
  apply Nat.xor_lt_two_pow h0
  apply and_lt_two_pow_right
  by_cases h : start < D
  · rw [if_pos h, Nat.mul_one]
    exact mod_two_pow_lt _ _
  · rw [if_neg h, Nat.mul_zero]
    exact Nat.pos_pow_of_pos _ (by norm_num)

/-! ## List access kit -/

theorem getD_append_left {l l2 : List Nat} {n : Nat} (h : n < l.length) :
    (l ++ l2).getD n 0 = l.getD n 0 := List.getD_append l l2 0 n h

theorem getD_append_rt {l l2 : List Nat} {n : Nat} (h : l.length ≤ n) :
    (l ++ l2).getD n 0 = l2.getD (n - l.length) 0 := List.getD_append_right l l2 0 n h

theorem getD_reverse {l : List Nat} {j : Nat} (h : j < l.length) :
    l.reverse.getD j 0 = l.getD (l.length - 1 - j) 0 := by
  rw [List.getD_eq_getElem l.reverse 0 (by simpa), List.getD_eq_getElem l 0 (by omega)]
  exact List.getElem_reverse _

theorem getD_map_f {f : Nat → Nat} {l : List Nat} {j : Nat} (h : j < l.length) :
    (l.map f).getD j 0 = f (l.getD j 0) := by
  rw [List.getD_eq_getElem (l.map f) 0 (by simpa), List.getD_eq_getElem l 0 h]
  exact List.getElem_map f

theorem getD_take_kit {l : List Nat} {n j : Nat} (hj : j < n) (h2 : j < l.length) :
    (l.take n).getD j 0 = l.getD j 0 := by
  rw [List.getD_eq_getElem (l.take n) 0 (by simp; omega), List.getD_eq_getElem l 0 h2]
  exact List.getElem_take _

theorem getD_drop_kit {l : List Nat} {n j : Nat} (h : n + j < l.length) :
    (l.drop n).getD j 0 = l.getD (n + j) 0 := by
  rw [List.getD_eq_getElem (l.drop n) 0 (by simp; omega), List.getD_eq_getElem l 0 h]
  exact List.getElem_drop _

theorem getD_set_self_kit {l : List Nat} {n : Nat} {w : Nat} (h : n < l.length) :
    (l.set n w).getD n 0 = w := by
  rw [List.getD_eq_getElem (l.set n w) 0 (by simpa)]
  exact List.getElem_set_self (by simpa using h)

theorem getD_set_ne_kit {l : List Nat} {n j : Nat} {w : Nat} (hne : j ≠ n) :
    (l.set n w).getD j 0 = l.getD j 0 := by
  by_cases hj : j < l.length
  · rw [List.getD_eq_getElem (l.set n w) 0 (by simpa), List.getD_eq_getElem l 0 hj]
    exact List.getElem_set_ne hne.symm (by simpa using hj)
  · rw [List.getD_eq_default (l.set n w) 0 (by simp; omega), List.getD_eq_default l 0 (by omega)]

theorem forall_mem_of_getD {l : List Nat} {B : Nat}
    (h : ∀ k, k < l.length → l.getD k 0 < B) : ∀ w ∈ l, w < B := by
  intro w hw
  obtain ⟨k, hk, rfl⟩ := List.mem_iff_getElem.mp hw
  have := h k hk
  rwa [List.getD_eq_getElem l 0 hk] at this

/-! ## Structure of the shift passes -/

theorem shldMap_length (D g : Nat) : ∀ l : List Nat, (shldMap D g l).length = l.length := by
  intro l
  induction l with
  | nil => rfl
  | cons w rest ih =>
    cases rest with
    | nil => rfl
    | cons w2 rest2 =>
      rw [shldMap]
      simp only [List.length_cons]
      rw [ih]
      simp

theorem shldMap_getD_mid (D g : Nat) :
    ∀ (l : List Nat) (j : Nat), j + 1 < l.length →
    (shldMap D g l).getD j 0 = _shld D (l.getD j 0) (l.getD (j + 1) 0) g := by
  intro l
  induction l with
  | nil =>
    intro j h
    simp at h
  | cons w rest ih =>
    intro j h
    cases rest with
    | nil =>
      simp at h
    | cons w2 rest2 =>
      rw [shldMap]
      cases j with
      | zero => rfl
      | succ j =>
        simp only [List.getD_cons_succ]
        exact ih j (by simpa using h)

theorem shldMap_getD_last (D g : Nat) :
    ∀ l : List Nat, l ≠ [] →
    (shldMap D g l).getD (l.length - 1) 0 = (l.getD (l.length - 1) 0 <<< g) % 2 ^ D := by
  intro l
  induction l with
  | nil =>
    intro h
    exact absurd rfl h
  | cons w rest ih =>
    intro _
    cases rest with
    | nil => rfl
    | cons w2 rest2 =>
      rw [shldMap]
      have hlen : (w :: w2 :: rest2).length - 1 = rest2.length + 1 := by simp
      rw [hlen]
      simp only [List.getD_cons_succ]
      have h2 : (w2 :: rest2).length - 1 = rest2.length := by simp
      have := ih (by simp)
      rw [h2] at this
      exact this

theorem shldMap_wf (D g : Nat) (hD : 0 < D) :
    ∀ l : List Nat, (∀ k, k < l.length → l.getD k 0 < 2 ^ D) →
    ∀ k, k < l.length → (shldMap D g l).getD k 0 < 2 ^ D := by
  intro l hwf k hk
  by_cases hlast : k + 1 < l.length
  · rw [shldMap_getD_mid D g l k hlast]
    exact _shld_lt (hwf _ hlast)
  · have hke : k = l.length - 1 := by omega
    have hne : l ≠ [] := by
      intro hcon
      rw [hcon] at hk
      simp at hk
    rw [hke, shldMap_getD_last D g l hne]
    exact mod_two_pow_lt _ _

theorem shrdMap_length (D g : Nat) (l : List Nat) : (shrdMap D g l).length = l.length := by
  cases l with
  | nil => rfl
  | cons w rest =>
    rw [shrdMap]
    simp only [List.length_cons, List.length_zipWith]
    omega

theorem shrdMap_getD_zero (D g : Nat) (l : List Nat) (h : l ≠ []) :
    (shrdMap D g l).getD 0 0 = l.getD 0 0 >>> g := by
  cases l with
  | nil => exact absurd rfl h
  | cons w rest => rfl

theorem shrdMap_getD_pos (D g : Nat) (l : List Nat) (j : Nat) (h0 : 0 < j) (h : j < l.length) :
    (shrdMap D g l).getD j 0 = _shrd D (l.getD j 0) (l.getD (j - 1) 0) g := by
  cases l with
  | nil => simp at h
  | cons w rest =>
    rw [shrdMap]
    obtain ⟨j2, rfl⟩ : ∃ j2, j = j2 + 1 := ⟨j - 1, by omega⟩
    simp only [List.getD_cons_succ]
    have hj2 : j2 < rest.length := by
      simp at h
      omega
    have hzl : j2 < (List.zipWith (fun cur prv => _shrd D cur prv g) rest (w :: rest)).length := by
      simp only [List.length_zipWith, List.length_cons]
      omega
    rw [List.getD_eq_getElem _ 0 hzl, List.getElem_zipWith]
    have hj2c : j2 < (w :: rest).length := by
      simp
      omega
    have e1 : rest.getD j2 0 = rest[j2] := List.getD_eq_getElem rest 0 hj2
    have e2 : (w :: rest).getD (j2 + 1 - 1) 0 = (w :: rest)[j2] := by
      simp only [Nat.add_sub_cancel]
      exact List.getD_eq_getElem _ 0 hj2c
    rw [← e1, ← e2]

theorem shrdMap_wf (D g : Nat) (hD : 0 < D) (l : List Nat)
    (hwf : ∀ k, k < l.length → l.getD k 0 < 2 ^ D) :
    ∀ k, k < l.length → (shrdMap D g l).getD k 0 < 2 ^ D := by
  intro k hk
  by_cases h0 : k = 0
  · subst h0
    rw [shrdMap_getD_zero D g l (by
      intro hcon
      rw [hcon] at hk
      simp at hk)]
    calc l.getD 0 0 >>> g ≤ l.getD 0 0 := shiftRight_le_self _ _
      _ < 2 ^ D := hwf 0 hk
  · rw [shrdMap_getD_pos D g l k (by omega) hk]
    exact _shrd_lt (hwf _ hk) (hwf _ (by omega))

theorem reverse_getD_wf {l : List Nat} {B : Nat}
    (hwf : ∀ k, k < l.length → l.getD k 0 < B) :
    ∀ k, k < l.length → l.reverse.getD k 0 < B := by
  intro k hk
  rw [getD_reverse hk]
  exact hwf _ (by omega)

theorem getD_oob_lt {l : List Nat} {D k : Nat} (hD : 0 < D)
    (hwf : ∀ j, j < l.length → l.getD j 0 < 2 ^ D) : l.getD k 0 < 2 ^ D := by
  by_cases h : k < l.length
  · exact hwf k h
  · rw [List.getD_eq_default l 0 (by omega)]
    exact Nat.pos_pow_of_pos _ (by norm_num)

/-! ## The reversed-and-shifted segment of `reverse` -/

theorem bitGet_word (D : Nat) (hD : 0 < D) (seg : List Nat) (k r : Nat) (hr : r < D) :
    bitGet D seg (k * D + r) = (seg.getD k 0).testBit r := by
  unfold bitGet wordAt
  rw [mulDivHelper k D r hD hr, mulModHelper k D r hr]

theorem headD_eq_getD (l : List Nat) : l.headD 0 = l.getD 0 0 := by
  cases l <;> rfl

/-- After word reversal, the shift pass and the per-word bit swap, bit
`j * D + r` of the segment holds bit `a2 + b2 - 1 - (j * D + r)` of the
original segment whenever that index exists, where `a2 = fp` and
`b2 = q * D + lp` delimit the target range in segment coordinates. -/
theorem segShift_testBit (D : Nat) (hD : 0 < D) (seg : List Nat) (fp lp q : Nat)
    (hfp : fp < D) (hlp : lp < D) (hq : 1 ≤ q)
    (hnal : ¬(fp = 0 ∧ lp = 0))
    (hm : seg.length = q + (if lp = 0 then 0 else 1))
    (hwf : ∀ k, k < seg.length → seg.getD k 0 < 2 ^ D)
    (j r : Nat) (hj : j < seg.length) (hr : r < D) :
    (((if fp < (D - lp) * (if lp = 0 then 0 else 1) then
          shldMap D ((D - lp) * (if lp = 0 then 0 else 1) - fp) seg.reverse
        else if (D - lp) * (if lp = 0 then 0 else 1) < fp then
          shrdMap D (fp - (D - lp) * (if lp = 0 then 0 else 1)) seg.reverse
        else seg.reverse).map (_bitswap D)).getD j 0).testBit r
      = if fp + (q * D + lp) ≤ seg.length * D + (j * D + r)
            ∧ j * D + r < fp + (q * D + lp)
        then bitGet D seg (fp + (q * D + lp) - 1 - (j * D + r))
        else false := by
  set m := seg.length with hm_def
  have hrev_len : seg.reverse.length = m := by simp [hm_def]
  have hrev_wf : ∀ k, k < seg.reverse.length → seg.reverse.getD k 0 < 2 ^ D := by
    rw [hrev_len]
    exact fun k hk => reverse_getD_wf hwf k hk
  have hm1 : 1 ≤ m := by omega
  -- product bridges used by all branches
  have hbr1 : (m - 1 - j) * D + (j * D + D) = m * D := by
    have h : (m - 1 - j) + (j + 1) = m := by omega
    have h2 : ((m - 1 - j) + (j + 1)) * D = (m - 1 - j) * D + (j * D + D) := by ring
    rw [← h2, h]
  have hjD : j * D + D ≤ m * D := by
    have : (j + 1) * D ≤ m * D := Nat.mul_le_mul_right D (by omega)
    have h2 : (j + 1) * D = j * D + D := by ring
    omega
  by_cases hlp0 : lp = 0
  · -- last aligned: gap = 0, the right-shift branch with g = fp
    have hfp0 : fp ≠ 0 := fun h => hnal ⟨h, hlp0⟩
    rw [if_pos hlp0] at hm ⊢
    rw [Nat.mul_zero]
    rw [if_neg (by omega), if_pos (by omega)]
    have hg1 : 0 < fp - 0 := by omega
    have hmq : m = q := by omega
    have hbrq : q * D = m * D := by rw [hmq]
    have hmap_len : (shrdMap D (fp - 0) seg.reverse).length = m := by
      rw [shrdMap_length, hrev_len]
    rw [getD_map_f (by omega)]
    have hval : (shrdMap D (fp - 0) seg.reverse).getD j 0 < 2 ^ D :=
      shrdMap_wf D (fp - 0) hD seg.reverse hrev_wf j (by omega)
    rw [_bitswap_testBit hD hval r hr]
    by_cases hj0 : j = 0
    · subst hj0
      rw [shrdMap_getD_zero D (fp - 0) seg.reverse (by
        intro hcon
        rw [hcon] at hrev_len
        simp at hrev_len
        omega)]
      rw [Nat.testBit_shiftRight, getD_reverse (by omega), ← hm_def]
      simp only [Nat.sub_zero]
      have hbr2 : (m - 1) * D + D = m * D := by
        have h : (m - 1) + 1 = m := by omega
        have h2 : ((m - 1) + 1) * D = (m - 1) * D + D := by ring
        rw [← h2, h]
      by_cases hgr : fp ≤ r
      · have hidx : fp + (D - 1 - r) = D + fp - 1 - r := by omega
        rw [hidx]
        have hbit : (seg.getD (m - 1) 0).testBit (D + fp - 1 - r)
            = bitGet D seg ((m - 1) * D + (D + fp - 1 - r)) :=
          (bitGet_word D hD seg (m - 1) (D + fp - 1 - r) (by omega)).symm
        rw [hbit, if_pos (by constructor <;> omega)]
        congr 1
        omega
      · rw [if_neg (by omega)]
        apply testBit_ge (hwf (m - 1) (by omega))
        omega
    · rw [shrdMap_getD_pos D (fp - 0) seg.reverse j (by omega) (by omega)]
      rw [_shrd_testBit (by omega) (by omega) (hrev_wf j (by omega)) (show D - 1 - r < D by omega)]
      rw [getD_reverse (by omega), getD_reverse (by omega), ← hm_def]
      have hjD1 : D ≤ j * D := by
        have h : 1 * D ≤ j * D := Nat.mul_le_mul_right D (by omega)
        omega
      by_cases hgr : fp ≤ r
      · rw [if_pos (by omega)]
        have hidx : D - 1 - r + (fp - 0) = D - 1 - r + fp := by omega
        rw [hidx]
        have hbit : (seg.getD (m - 1 - j) 0).testBit (D - 1 - r + fp)
            = bitGet D seg ((m - 1 - j) * D + (D - 1 - r + fp)) := by
          rw [bitGet_word D hD seg (m - 1 - j) (D - 1 - r + fp) (by omega)]
        rw [hbit, if_pos (by constructor <;> omega)]
        congr 1
        omega
      · rw [if_neg (by omega)]
        have hidx : D - 1 - r - (D - (fp - 0)) = fp - 1 - r := by omega
        rw [hidx]
        have hmj : m - 1 - (j - 1) = m - j := by omega
        rw [hmj]
        have hbit : (seg.getD (m - j) 0).testBit (fp - 1 - r)
            = bitGet D seg ((m - j) * D + (fp - 1 - r)) := by
          rw [bitGet_word D hD seg (m - j) (fp - 1 - r) (by omega)]
        rw [hbit, if_pos (by
          constructor
          · omega
          · have hbr3 : (j - 1) * D + D = j * D := by
              have h : (j - 1) + 1 = j := by omega
              have h2 : ((j - 1) + 1) * D = (j - 1) * D + D := by ring
              rw [← h2, h]
            have h4 : j * D ≤ (m - 1) * D := Nat.mul_le_mul_right D (by omega)
            have hbr4 : (m - 1) * D + D = m * D := by
              have h : (m - 1) + 1 = m := by omega
              have h2 : ((m - 1) + 1) * D = (m - 1) * D + D := by ring
              rw [← h2, h]
            omega)]
        congr 1
        have hbr5 : (m - j) * D + j * D = m * D := by
          have h : (m - j) + j = m := by omega
          have h2 : ((m - j) + j) * D = (m - j) * D + j * D := by ring
          rw [← h2, h]
        omega
  · -- last unaligned: gap = D - lp
    have hlp1 : 1 ≤ lp := by omega
    rw [if_neg hlp0] at hm ⊢
    rw [Nat.mul_one]
    have hmq : m = q + 1 := by omega
    have hbrq : q * D + D = m * D := by
      rw [hmq]
      ring
    rcases Nat.lt_trichotomy fp (D - lp) with hcmp | hcmp | hcmp
    · -- left shift with g = (D - lp) - fp
      rw [if_pos hcmp]
      set g := D - lp - fp with hg_def
      have hg1 : 0 < g := by omega
      have hgD : g < D := by omega
      have hmap_len : (shldMap D g seg.reverse).length = m := by
        rw [shldMap_length, hrev_len]
      rw [getD_map_f (by omega)]
      have hval : (shldMap D g seg.reverse).getD j 0 < 2 ^ D :=
        shldMap_wf D g hD seg.reverse hrev_wf j (by omega)
      rw [_bitswap_testBit hD hval r hr]
      by_cases hjlast : j + 1 < m
      · rw [shldMap_getD_mid D g seg.reverse j (by omega)]
        rw [_shld_testBit hg1 hgD (hrev_wf (j + 1) (by omega)) (show D - 1 - r < D by omega)]
        rw [getD_reverse (by omega), getD_reverse (by omega), ← hm_def]
        have h4 : j * D + D + D ≤ m * D := by
          have h5 : (j + 2) * D ≤ m * D := Nat.mul_le_mul_right D (by omega)
          have h6 : (j + 2) * D = j * D + D + D := by ring
          omega
        by_cases hgr : g ≤ D - 1 - r
        · rw [if_pos hgr]
          have hbit : (seg.getD (m - 1 - j) 0).testBit (D - 1 - r - g)
              = bitGet D seg ((m - 1 - j) * D + (D - 1 - r - g)) := by
            rw [bitGet_word D hD seg (m - 1 - j) (D - 1 - r - g) (by omega)]
          rw [hbit, if_pos (by constructor <;> omega)]
          congr 1
          omega
        · rw [if_neg hgr]
          have hmj : m - 1 - (j + 1) = m - 2 - j := by omega
          rw [hmj]
          have hbit : (seg.getD (m - 2 - j) 0).testBit (D - g + (D - 1 - r))
              = bitGet D seg ((m - 2 - j) * D + (D - g + (D - 1 - r))) := by
            rw [bitGet_word D hD seg (m - 2 - j) (D - g + (D - 1 - r)) (by omega)]
          rw [hbit, if_pos (by
            constructor
            · omega
            · have h4 : j * D + D + D ≤ m * D := by
                have h5 : (j + 2) * D ≤ m * D := Nat.mul_le_mul_right D (by omega)
                have h6 : (j + 2) * D = j * D + D + D := by ring
                omega
              omega)]
          congr 1
          have hbr6 : (m - 2 - j) * D + (j * D + D + D) = m * D := by
            have h : (m - 2 - j) + (j + 2) = m := by omega
            have h2 : ((m - 2 - j) + (j + 2)) * D = (m - 2 - j) * D + (j * D + D + D) := by
              ring
            rw [← h2, h]
          omega
      · have hjm : j = m - 1 := by omega
        subst hjm
        have hlast := shldMap_getD_last D g seg.reverse (by
          intro hcon
          rw [hcon] at hrev_len
          simp at hrev_len
          omega)
        rw [hrev_len] at hlast
        rw [hlast, Nat.testBit_mod_two_pow, Nat.testBit_shiftLeft]
        rw [getD_reverse (by omega), ← hm_def]
        have hmm : m - 1 - (m - 1) = 0 := by omega
        rw [hmm]
        by_cases hgr : g ≤ D - 1 - r
        · rw [decide_eq_true (show D - 1 - r < D by omega), decide_eq_true hgr]
          simp only [Bool.true_and]
          have hbit : (seg.getD 0 0).testBit (D - 1 - r - g)
              = bitGet D seg (0 * D + (D - 1 - r - g)) := by
            rw [bitGet_word D hD seg 0 (D - 1 - r - g) (by omega)]
          rw [Nat.zero_mul, Nat.zero_add] at hbit
          rw [hbit, if_pos (by
            constructor
            · omega
            · have hbr7 : (m - 1) * D + D = m * D := by
                have h : (m - 1) + 1 = m := by omega
                have h2 : ((m - 1) + 1) * D = (m - 1) * D + D := by ring
                rw [← h2, h]
              omega)]
          congr 1
          have hbr7 : (m - 1) * D + D = m * D := by
            have h : (m - 1) + 1 = m := by omega
            have h2 : ((m - 1) + 1) * D = (m - 1) * D + D := by ring
            rw [← h2, h]
          omega
        · rw [decide_eq_true (show D - 1 - r < D by omega), decide_eq_false hgr]
          simp only [Bool.true_and, Bool.false_and, Bool.and_false]
          have hbr7 : (m - 1) * D + D = m * D := by
            have h : (m - 1) + 1 = m := by omega
            have h2 : ((m - 1) + 1) * D = (m - 1) * D + D := by ring
            rw [← h2, h]
          rw [if_neg (by omega)]
    · -- no shift: fp = D - lp
      rw [if_neg (by omega), if_neg (by omega)]
      rw [getD_map_f (by omega)]
      rw [_bitswap_testBit hD (hrev_wf j (by omega)) r hr]
      rw [getD_reverse (by omega), ← hm_def]
      have hbit : (seg.getD (m - 1 - j) 0).testBit (D - 1 - r)
          = bitGet D seg ((m - 1 - j) * D + (D - 1 - r)) := by
        rw [bitGet_word D hD seg (m - 1 - j) (D - 1 - r) (by omega)]
      rw [hbit, if_pos (by constructor <;> omega)]
      congr 1
      omega
    · -- right shift with g = fp - (D - lp)
      rw [if_neg (by omega), if_pos (by omega)]
      set g := fp - (D - lp) with hg_def
      have hg1 : 0 < g := by omega
      have hgD : g < D := by omega
      have hmap_len : (shrdMap D g seg.reverse).length = m := by
        rw [shrdMap_length, hrev_len]
      rw [getD_map_f (by omega)]
      have hval : (shrdMap D g seg.reverse).getD j 0 < 2 ^ D :=
        shrdMap_wf D g hD seg.reverse hrev_wf j (by omega)
      rw [_bitswap_testBit hD hval r hr]
      by_cases hj0 : j = 0
      · subst hj0
        rw [shrdMap_getD_zero D g seg.reverse (by
          intro hcon
          rw [hcon] at hrev_len
          simp at hrev_len
          omega)]
        rw [Nat.testBit_shiftRight, getD_reverse (by omega), ← hm_def]
        by_cases hgr : g ≤ r
        · have hidx : g + (D - 1 - r) = D + g - 1 - r := by omega
          rw [hidx]
          have hbit : (seg.getD (m - 1 - 0) 0).testBit (D + g - 1 - r)
              = bitGet D seg ((m - 1) * D + (D + g - 1 - r)) := by
            rw [bitGet_word D hD seg (m - 1) (D + g - 1 - r) (by omega)]
            simp only [Nat.sub_zero]
          simp only [Nat.sub_zero] at hbit ⊢
          rw [hbit, if_pos (by
            constructor
            · have hbr7 : (m - 1) * D + D = m * D := by
                have h : (m - 1) + 1 = m := by omega
                have h2 : ((m - 1) + 1) * D = (m - 1) * D + D := by ring
                rw [← h2, h]
              omega
            · have hbr7 : (m - 1) * D + D = m * D := by
                have h : (m - 1) + 1 = m := by omega
                have h2 : ((m - 1) + 1) * D = (m - 1) * D + D := by ring
                rw [← h2, h]
              omega)]
          congr 1
          have hbr7 : (m - 1) * D + D = m * D := by
            have h : (m - 1) + 1 = m := by omega
            have h2 : ((m - 1) + 1) * D = (m - 1) * D + D := by ring
            rw [← h2, h]
          omega
        · rw [if_neg (by
            intro hcon
            have hbr7 : (m - 1) * D + D = m * D := by
              have h : (m - 1) + 1 = m := by omega
              have h2 : ((m - 1) + 1) * D = (m - 1) * D + D := by ring
              rw [← h2, h]
            omega)]
          apply testBit_ge (hwf (m - 1 - 0) (by omega))
          omega
      · rw [shrdMap_getD_pos D g seg.reverse j (by omega) (by omega)]
        rw [_shrd_testBit hg1 hgD (hrev_wf j (by omega)) (show D - 1 - r < D by omega)]
        rw [getD_reverse (by omega), getD_reverse (by omega), ← hm_def]
        have hjD1 : D ≤ j * D := by
          have h : 1 * D ≤ j * D := Nat.mul_le_mul_right D (by omega)
          omega
        by_cases hgr : g ≤ r
        · rw [if_pos (by omega)]
          have hbit : (seg.getD (m - 1 - j) 0).testBit (D - 1 - r + g)
              = bitGet D seg ((m - 1 - j) * D + (D - 1 - r + g)) := by
            rw [bitGet_word D hD seg (m - 1 - j) (D - 1 - r + g) (by omega)]
          rw [hbit, if_pos (by constructor <;> omega)]
          congr 1
          omega
        · rw [if_neg (by omega)]
          have hidx : D - 1 - r - (D - g) = g - 1 - r := by omega
          rw [hidx]
          have hmj : m - 1 - (j - 1) = m - j := by omega
          rw [hmj]
          have hbit : (seg.getD (m - j) 0).testBit (g - 1 - r)
              = bitGet D seg ((m - j) * D + (g - 1 - r)) := by
            rw [bitGet_word D hD seg (m - j) (g - 1 - r) (by omega)]
          rw [hbit, if_pos (by constructor <;> omega)]
          congr 1
          have hbr5 : (m - j) * D + j * D = m * D := by
            have h : (m - j) + j = m := by omega
            have h2 : ((m - j) + j) * D = (m - j) * D + j * D := by ring
            rw [← h2, h]
          omega


/-! ## The three branches of `reverse` -/

theorem drop_take_getD (ws : List Nat) (fi n j : Nat) (hj : j < n) (hfn : fi + j < ws.length) :
    ((ws.drop fi).take n).getD j 0 = ws.getD (fi + j) 0 := by
  rw [getD_take_kit hj (by simp; omega), getD_drop_kit (by omega)]

theorem seg_bitGet (D : Nat) (hD : 0 < D) (ws : List Nat) (fi n : Nat)
    (hn : fi + n ≤ ws.length) (t : Nat) (ht : t < n * D) :
    bitGet D ((ws.drop fi).take n) t = bitGet D ws (fi * D + t) := by
  have hrD : t % D < D := Nat.mod_lt _ hD
  have htD : t / D < n := (Nat.div_lt_iff_lt_mul hD).mpr ht
  have h2 : t = t / D * D + t % D := by
    rw [Nat.mul_comm]
    exact (Nat.div_add_mod t D).symm
  rw [h2, bitGet_word D hD _ _ _ hrD,
    drop_take_getD ws fi n (t / D) htD (by omega)]
  have h3 : fi * D + (t / D * D + t % D) = (fi + t / D) * D + t % D := by ring
  rw [h3, bitGet_word D hD ws _ _ hrD]

/-- Bit-level effect of the word-aligned branch of `reverse`: words in
`[fi, li)` are reversed and bit-swapped, every other word is untouched. -/
theorem reverse_aligned_getD (D : Nat) (hD : 0 < D) (ws : List Nat) (fi li : Nat)
    (hwf : ∀ k, k < ws.length → ws.getD k 0 < 2 ^ D)
    (hfle : fi ≤ li) (hli : li ≤ ws.length)
    (k r : Nat) (hk : k < ws.length) (hr : r < D) :
    ((reverse D ws fi 0 li 0).getD k 0).testBit r =
      if fi * D ≤ k * D + r ∧ k * D + r < li * D
      then bitGet D ws (fi * D + li * D - 1 - (k * D + r))
      else (ws.getD k 0).testBit r := by
  have hres : reverse D ws fi 0 li 0
      = ws.take fi ++ ((ws.drop fi).take (li - fi)).reverse.map (_bitswap D) ++ ws.drop li := by
    simp [reverse]
  rw [hres, List.append_assoc]
  set seg := (ws.drop fi).take (li - fi) with hseg
  have hseglen : seg.length = li - fi := by
    rw [hseg]
    simp
    omega
  have htake_len : (ws.take fi).length = fi := by
    simp
    omega
  have hmap_len : (seg.reverse.map (_bitswap D)).length = li - fi := by
    simp [hseglen]
  rcases Nat.lt_or_ge k fi with hkfi | hkfi
  · rw [getD_append_left (by rw [htake_len]; omega), getD_take_kit hkfi hk]
    have hb2 : (k + 1) * D ≤ fi * D := Nat.mul_le_mul_right D (by omega)
    have hb3 : (k + 1) * D = k * D + D := by ring
    rw [if_neg (by omega)]
  · rw [getD_append_rt (by rw [htake_len]; omega), htake_len]
    rcases Nat.lt_or_ge k li with hkli | hkli
    · rw [getD_append_left (by rw [hmap_len]; omega)]
      rw [getD_map_f (by rw [List.length_reverse, hseglen]; omega)]
      have hrev : seg.reverse.getD (k - fi) 0 = seg.getD (li - fi - 1 - (k - fi)) 0 := by
        rw [getD_reverse (by rw [hseglen]; omega), hseglen]
      have hsegget : seg.getD (li - fi - 1 - (k - fi)) 0
          = ws.getD (fi + (li - fi - 1 - (k - fi))) 0 := by
        rw [hseg]
        exact drop_take_getD ws fi (li - fi) _ (by omega) (by omega)
      rw [hrev, hsegget, _bitswap_testBit hD (hwf _ (by omega)) r hr]
      have hw : bitGet D ws ((fi + (li - fi - 1 - (k - fi))) * D + (D - 1 - r))
          = (ws.getD (fi + (li - fi - 1 - (k - fi))) 0).testBit (D - 1 - r) :=
        bitGet_word D hD ws _ _ (by omega)
      have hb1 : fi * D ≤ k * D := Nat.mul_le_mul_right D hkfi
      have hb2 : k * D + D ≤ li * D := by
        have h := Nat.mul_le_mul_right D (show k + 1 ≤ li by omega)
        have h2 : (k + 1) * D = k * D + D := by ring
        omega
      have hbr : (fi + (li - fi - 1 - (k - fi))) * D + (k * D + D) = fi * D + li * D := by
        have h1 : (fi + (li - fi - 1 - (k - fi))) + (k + 1) = fi + li := by omega
        calc (fi + (li - fi - 1 - (k - fi))) * D + (k * D + D)
            = ((fi + (li - fi - 1 - (k - fi))) + (k + 1)) * D := by ring
          _ = (fi + li) * D := by rw [h1]
          _ = fi * D + li * D := by ring
      rw [if_pos (by constructor <;> omega), ← hw]
      congr 1
      omega
    · rw [getD_append_rt (by rw [hmap_len]; omega), hmap_len]
      have hidx : k - fi - (li - fi) = k - li := by omega
      rw [hidx, getD_drop_kit (by omega)]
      have hidx2 : li + (k - li) = k := by omega
      rw [hidx2]
      have hb1 : li * D ≤ k * D := Nat.mul_le_mul_right D hkli
      rw [if_neg (by omega)]

/-- Bit-level effect of the single-word branch of `reverse`: the bits of word
`fi` between positions `fp` and `lp` are reversed in place, all other bits of
all words are untouched. -/
theorem reverse_same_getD (D : Nat) (hD : 0 < D) (ws : List Nat) (fi fp lp : Nat)
    (hwf : ∀ k, k < ws.length → ws.getD k 0 < 2 ^ D)
    (hfp : fp < D) (hlp : lp < D) (hple : fp ≤ lp) (hlp1 : 0 < lp)
    (hfi : fi < ws.length)
    (k r : Nat) (hk : k < ws.length) (hr : r < D) :
    ((reverse D ws fi fp fi lp).getD k 0).testBit r =
      if fi * D + fp ≤ k * D + r ∧ k * D + r < fi * D + lp
      then bitGet D ws (fi * D + fp + (fi * D + lp) - 1 - (k * D + r))
      else (ws.getD k 0).testBit r := by
  have hres : reverse D ws fi fp fi lp
      = ws.set fi (_bitblend D (ws.getD fi 0)
          (_bitswap D (ws.getD fi 0 >>> fp) >>> (D - lp)) fp (lp - fp)) := by
    simp only [reverse, wordAt]
    rw [if_neg (by rintro ⟨h1, h2⟩; omega), if_neg (by simp),
      if_neg (by omega : ¬lp = 0), Nat.mul_one]
  rw [hres]
  by_cases hkfi : k = fi
  · subst hkfi
    rw [getD_set_self_kit hfi]
    rw [_bitblend_testBit hfp (by omega) hr]
    have hwin : fp + (lp - fp) = lp := by omega
    rw [hwin]
    by_cases hin : fp ≤ r ∧ r < lp
    · rw [if_pos hin, Nat.testBit_shiftRight]
      have hsw : ws.getD k 0 >>> fp < 2 ^ D :=
        Nat.lt_of_le_of_lt (shiftRight_le_self _ _) (hwf k hfi)
      rw [_bitswap_testBit hD hsw (D - lp + r) (by omega), Nat.testBit_shiftRight]
      have hidx : fp + (D - 1 - (D - lp + r)) = fp + lp - 1 - r := by omega
      rw [hidx]
      have hw2 : bitGet D ws (k * D + (fp + lp - 1 - r))
          = (ws.getD k 0).testBit (fp + lp - 1 - r) :=
        bitGet_word D hD ws _ _ (by omega)
      rw [if_pos (by constructor <;> omega), ← hw2]
      congr 1
      omega
    · rw [if_neg hin,
        if_neg (by intro hcon; exact hin ⟨by omega, by omega⟩)]
  · rw [getD_set_ne_kit hkfi]
    rcases Nat.lt_or_ge k fi with h | h
    · have hb : (k + 1) * D ≤ fi * D := Nat.mul_le_mul_right D (by omega)
      have hb2 : (k + 1) * D = k * D + D := by ring
      rw [if_neg (by omega)]
    · have hgt : fi + 1 ≤ k := by omega
      have hb : (fi + 1) * D ≤ k * D := Nat.mul_le_mul_right D hgt
      have hb2 : (fi + 1) * D = fi * D + D := by ring
      rw [if_neg (by omega)]

/-- Bit-level effect of the multi-word unaligned branch of `reverse`: bits in
`[fi * D + fp, li * D + lp)` are reversed, every bit outside — including the
remaining bits of the two boundary words — is untouched. -/
theorem reverse_mid_getD (D : Nat) (hD : 0 < D) (ws : List Nat) (fi fp li lp : Nat)
    (hwf : ∀ k, k < ws.length → ws.getD k 0 < 2 ^ D)
    (hfp : fp < D) (hlp : lp < D)
    (hnal : ¬(fp = 0 ∧ lp = 0)) (hfl : fi < li)
    (hbound : li * D + lp ≤ ws.length * D)
    (k r : Nat) (hk : k < ws.length) (hr : r < D) :
    ((reverse D ws fi fp li lp).getD k 0).testBit r =
      if fi * D + fp ≤ k * D + r ∧ k * D + r < li * D + lp
      then bitGet D ws (fi * D + fp + (li * D + lp) - 1 - (k * D + r))
      else (ws.getD k 0).testBit r := by
  have hlile : li ≤ ws.length :=
    Nat.le_of_mul_le_mul_right (show li * D ≤ ws.length * D by omega) hD
  set E := li + (if lp = 0 then 0 else 1) with hE
  have hEle : E ≤ ws.length := by
    rw [hE]
    by_cases h0 : lp = 0
    · rw [if_pos h0]
      omega
    · rw [if_neg h0]
      have h1 : li * D < ws.length * D := by omega
      have h2 : li < ws.length := lt_of_mul_lt_mul_right h1 (Nat.zero_le D)
      omega
  have hfiE : fi < E := by
    rw [hE]
    by_cases h0 : lp = 0
    · rw [if_pos h0]
      omega
    · rw [if_neg h0]
      omega
  set q := li - fi with hq_def
  have hq1 : 1 ≤ q := by omega
  set gap := (D - lp) * (if lp = 0 then 0 else 1) with hgap
  set seg := (ws.drop fi).take (E - fi) with hseg
  have hseglen : seg.length = E - fi := by
    rw [hseg]
    simp
    omega
  have hm1 : 1 ≤ seg.length := by
    rw [hseglen]
    omega
  have hm : seg.length = q + (if lp = 0 then 0 else 1) := by
    rw [hseglen, hE, hq_def]
    by_cases h0 : lp = 0
    · rw [if_pos h0]
      omega
    · rw [if_neg h0]
      omega
  have hsegget : ∀ j, j < E - fi → seg.getD j 0 = ws.getD (fi + j) 0 := by
    intro j hj
    rw [hseg]
    exact drop_take_getD ws fi (E - fi) j hj (by omega)
  have hsegwf : ∀ j, j < seg.length → seg.getD j 0 < 2 ^ D := by
    intro j hj
    rw [hseglen] at hj
    rw [hsegget j hj]
    exact hwf _ (by omega)
  have hrevwf : ∀ t, t < seg.reverse.length → seg.reverse.getD t 0 < 2 ^ D := by
    rw [List.length_reverse]
    exact fun t ht => reverse_getD_wf hsegwf t ht
  set seg3 := ((if fp < gap then shldMap D (gap - fp) seg.reverse
      else if gap < fp then shrdMap D (fp - gap) seg.reverse
      else seg.reverse).map (_bitswap D)) with hseg3
  have hseg3_len : seg3.length = seg.length := by
    rw [hseg3]
    by_cases h1 : fp < gap
    · rw [if_pos h1]
      simp [shldMap_length]
    · rw [if_neg h1]
      by_cases h2 : gap < fp
      · rw [if_pos h2]
        simp [shrdMap_length]
      · rw [if_neg h2]
        simp
  have hseg3_wf : ∀ j, j < seg.length → seg3.getD j 0 < 2 ^ D := by
    intro j hj
    rw [hseg3]
    by_cases h1 : fp < gap
    · rw [if_pos h1, getD_map_f (by rw [shldMap_length, List.length_reverse]; omega)]
      exact _bitswap_lt hD (shldMap_wf D (gap - fp) hD seg.reverse hrevwf j
        (by rw [List.length_reverse]; omega))
    · rw [if_neg h1]
      by_cases h2 : gap < fp
      · rw [if_pos h2, getD_map_f (by rw [shrdMap_length, List.length_reverse]; omega)]
        exact _bitswap_lt hD (shrdMap_wf D (fp - gap) hD seg.reverse hrevwf j
          (by rw [List.length_reverse]; omega))
      · rw [if_neg h2, getD_map_f (by rw [List.length_reverse]; omega)]
        exact _bitswap_lt hD (hrevwf j (by rw [List.length_reverse]; omega))
  have hseg3_bit : ∀ j v, j < seg.length → v < D →
      (seg3.getD j 0).testBit v
        = if fp + (q * D + lp) ≤ seg.length * D + (j * D + v)
              ∧ j * D + v < fp + (q * D + lp)
          then bitGet D seg (fp + (q * D + lp) - 1 - (j * D + v))
          else false := by
    intro j v hj hv
    have h := segShift_testBit D hD seg fp lp q hfp hlp hq1 hnal hm hsegwf j v hj hv
    rw [hseg3, hgap]
    exact h
  set seg4 := (if fp = 0 then seg3
      else seg3.set 0 (_bitblend D (ws.getD fi 0) (seg3.headD 0) fp (D - fp))) with hseg4
  set seg5 := (if lp = 0 then seg4
      else seg4.set (E - fi - 1)
        (_bitblend D (seg4.getD (E - fi - 1) 0)
          (ws.getD (li - (if lp = 0 then 1 else 0)) 0) lp (D - lp))) with hseg5
  have hres : reverse D ws fi fp li lp = ws.take fi ++ seg5 ++ ws.drop E := by
    rw [hseg5, hseg4, hseg3, hseg, hE, hgap]
    simp only [reverse, wordAt]
    rw [if_neg hnal, if_pos (by omega : fi ≠ li)]
  have hseg4_len : seg4.length = seg.length := by
    rw [hseg4]
    by_cases h0 : fp = 0
    · rw [if_pos h0]
      exact hseg3_len
    · rw [if_neg h0, List.length_set]
      exact hseg3_len
  have hseg5_len : seg5.length = seg.length := by
    rw [hseg5]
    by_cases h0 : lp = 0
    · rw [if_pos h0]
      exact hseg4_len
    · rw [if_neg h0, List.length_set]
      exact hseg4_len
  have hDq : D ≤ q * D := by
    have h := Nat.mul_le_mul_right D hq1
    rwa [Nat.one_mul] at h
  have hseg5_bit : ∀ j v, j < seg.length → v < D →
      (seg5.getD j 0).testBit v
        = if fp ≤ j * D + v ∧ j * D + v < q * D + lp
          then bitGet D seg (fp + (q * D + lp) - 1 - (j * D + v))
          else (ws.getD (fi + j) 0).testBit v := by
    intro j v hj hv
    by_cases hlp0 : lp = 0
    · have hfp0 : fp ≠ 0 := fun h => hnal ⟨h, hlp0⟩
      have hmq : seg.length = q := by
        rw [hm, if_pos hlp0]
        omega
      have hsl : seg.length * D = q * D := by rw [hmq]
      rw [hseg5, if_pos hlp0, hseg4, if_neg hfp0]
      by_cases hj0 : j = 0
      · subst hj0
        rw [getD_set_self_kit (by rw [hseg3_len]; omega)]
        rw [_bitblend_testBit hfp (by omega) hv]
        have hwin : fp + (D - fp) = D := by omega
        rw [hwin]
        by_cases hvf : fp ≤ v
        · rw [if_pos ⟨hvf, hv⟩, headD_eq_getD]
          rw [hseg3_bit 0 v (by omega) hv]
          rw [if_pos (by constructor <;> omega), if_pos (by constructor <;> omega)]
        · rw [if_neg (by intro hcon; exact hvf hcon.1)]
          rw [if_neg (by omega), Nat.add_zero]
      · rw [getD_set_ne_kit hj0]
        have hjD1 : D ≤ j * D := by
          have h := Nat.mul_le_mul_right D (show 1 ≤ j by omega)
          rwa [Nat.one_mul] at h
        have hjb : j * D + D ≤ seg.length * D := by
          have h := Nat.mul_le_mul_right D (show j + 1 ≤ seg.length by omega)
          have h2 : (j + 1) * D = j * D + D := by ring
          omega
        rw [hseg3_bit j v hj hv]
        rw [if_pos (by constructor <;> omega), if_pos (by constructor <;> omega)]
    · have hmq : seg.length = q + 1 := by rw [hm, if_neg hlp0]
      have hsl : seg.length * D = q * D + D := by
        rw [hmq]
        ring
      have hEfi : E - fi - 1 = q := by omega
      have hE1 : E = li + 1 := by rw [hE, if_neg hlp0]
      rw [hseg5, if_neg hlp0]
      by_cases hjq : j = E - fi - 1
      · rw [hjq, getD_set_self_kit (by rw [hseg4_len, hseglen]; omega)]
        rw [_bitblend_testBit hlp (by omega) hv]
        have hwin : lp + (D - lp) = D := by omega
        rw [hwin]
        have hbq : (E - fi - 1) * D = q * D := by rw [hEfi]
        by_cases hvl : lp ≤ v
        · rw [if_pos ⟨hvl, hv⟩, if_neg hlp0, Nat.sub_zero]
          rw [if_neg (by omega)]
          have hfij : fi + (E - fi - 1) = li := by omega
          rw [hfij]
        · rw [if_neg (by intro hcon; exact hvl hcon.1)]
          have hs4 : seg4.getD (E - fi - 1) 0 = seg3.getD (E - fi - 1) 0 := by
            rw [hseg4]
            by_cases h0 : fp = 0
            · rw [if_pos h0]
            · rw [if_neg h0, getD_set_ne_kit (by omega)]
          rw [hs4, hseg3_bit (E - fi - 1) v (by omega) hv]
          rw [if_pos (by constructor <;> omega), if_pos (by constructor <;> omega)]
      · rw [getD_set_ne_kit hjq]
        have hjb : j * D + D ≤ q * D := by
          have h := Nat.mul_le_mul_right D (show j + 1 ≤ q by omega)
          have h2 : (j + 1) * D = j * D + D := by ring
          omega
        by_cases hfp0 : fp = 0
        · rw [hseg4, if_pos hfp0]
          rw [hseg3_bit j v hj hv]
          rw [if_pos (by constructor <;> omega), if_pos (by constructor <;> omega)]
        · rw [hseg4, if_neg hfp0]
          by_cases hj0 : j = 0
          · subst hj0
            rw [getD_set_self_kit (by rw [hseg3_len]; omega)]
            rw [_bitblend_testBit hfp (by omega) hv]
            have hwin : fp + (D - fp) = D := by omega
            rw [hwin]
            by_cases hvf : fp ≤ v
            · rw [if_pos ⟨hvf, hv⟩, headD_eq_getD]
              rw [hseg3_bit 0 v (by omega) hv]
              rw [if_pos (by constructor <;> omega), if_pos (by constructor <;> omega)]
            · rw [if_neg (by intro hcon; exact hvf hcon.1)]
              rw [if_neg (by omega), Nat.add_zero]
          · rw [getD_set_ne_kit hj0]
            have hjD1 : D ≤ j * D := by
              have h := Nat.mul_le_mul_right D (show 1 ≤ j by omega)
              rwa [Nat.one_mul] at h
            rw [hseg3_bit j v hj hv]
            rw [if_pos (by constructor <;> omega), if_pos (by constructor <;> omega)]
  have hqlp : q * D + lp ≤ seg.length * D := by
    by_cases h0 : lp = 0
    · have hmq : seg.length = q := by
        rw [hm, if_pos h0]
        omega
      have hsl : seg.length * D = q * D := by rw [hmq]
      omega
    · have hmq : seg.length = q + 1 := by rw [hm, if_neg h0]
      have hsl : seg.length * D = q * D + D := by
        rw [hmq]
        ring
      omega
  have htake_len : (ws.take fi).length = fi := by
    simp
    omega
  rw [hres, List.append_assoc]
  rcases Nat.lt_or_ge k fi with hkfi | hkfi
  · rw [getD_append_left (by rw [htake_len]; omega), getD_take_kit hkfi hk]
    have hb2 : (k + 1) * D ≤ fi * D := Nat.mul_le_mul_right D (by omega)
    have hb3 : (k + 1) * D = k * D + D := by ring
    have hb4 : fi * D ≤ li * D := Nat.mul_le_mul_right D (by omega)
    rw [if_neg (by omega)]
  · rw [getD_append_rt (by rw [htake_len]; omega), htake_len]
    rcases Nat.lt_or_ge k E with hkE | hkE
    · rw [getD_append_left (by rw [hseg5_len, hseglen]; omega)]
      rw [hseg5_bit (k - fi) r (by rw [hseglen]; omega) hr]
      have hkD : (k - fi) * D + fi * D = k * D := by
        have h1 : (k - fi) + fi = k := by omega
        calc (k - fi) * D + fi * D = ((k - fi) + fi) * D := by ring
          _ = k * D := by rw [h1]
      have hliD : q * D + fi * D = li * D := by
        have h1 : q + fi = li := by omega
        calc q * D + fi * D = (q + fi) * D := by ring
          _ = li * D := by rw [h1]
      have hED : seg.length * D = (E - fi) * D := by rw [hseglen]
      by_cases hin : fi * D + fp ≤ k * D + r ∧ k * D + r < li * D + lp
      · rw [if_pos (by constructor <;> omega), if_pos hin]
        have htb : fp + (q * D + lp) - 1 - ((k - fi) * D + r) < (E - fi) * D := by
          omega
        rw [hseg, seg_bitGet D hD ws fi (E - fi) (by omega)
          (fp + (q * D + lp) - 1 - ((k - fi) * D + r)) htb]
        congr 1
        omega
      · rw [if_neg (by intro hcon; exact hin ⟨by omega, by omega⟩), if_neg hin]
        have hfik : fi + (k - fi) = k := by omega
        rw [hfik]
    · rw [getD_append_rt (by rw [hseg5_len, hseglen]; omega), hseg5_len, hseglen]
      have hidx : k - fi - (E - fi) = k - E := by omega
      rw [hidx, getD_drop_kit (by omega)]
      have hidx2 : E + (k - E) = k := by omega
      rw [hidx2]
      have hb1 : E * D ≤ k * D := Nat.mul_le_mul_right D hkE
      by_cases h0 : lp = 0
      · have hE1 : E = li := by rw [hE, if_pos h0, Nat.add_zero]
        have hED : E * D = li * D := by rw [hE1]
        rw [if_neg (by omega)]
      · have hE1 : E = li + 1 := by rw [hE, if_neg h0]
        have hED : E * D = li * D + D := by
          rw [hE1]
          ring
        rw [if_neg (by omega)]

/-- Length and word bound preservation for the word-aligned branch. -/
theorem reverse_aligned_len_wf (D : Nat) (hD : 0 < D) (ws : List Nat) (fi li : Nat)
    (hwf : ∀ k, k < ws.length → ws.getD k 0 < 2 ^ D)
    (hfle : fi ≤ li) (hli : li ≤ ws.length) :
    (reverse D ws fi 0 li 0).length = ws.length
    ∧ ∀ k, k < ws.length → (reverse D ws fi 0 li 0).getD k 0 < 2 ^ D := by
  have hres : reverse D ws fi 0 li 0
      = ws.take fi ++ ((ws.drop fi).take (li - fi)).reverse.map (_bitswap D) ++ ws.drop li := by
    simp [reverse]
  constructor
  · rw [hres]
    simp only [List.length_append, List.length_map, List.length_reverse, List.length_take,
      List.length_drop]
    omega
  · intro k hk
    rw [hres, List.append_assoc]
    have htl : (ws.take fi).length = fi := by
      simp
      omega
    have hsl : ((ws.drop fi).take (li - fi)).length = li - fi := by
      simp
      omega
    have hml : (((ws.drop fi).take (li - fi)).reverse.map (_bitswap D)).length = li - fi := by
      simp
      omega
    rcases Nat.lt_or_ge k fi with h | h
    · rw [getD_append_left (by rw [htl]; omega), getD_take_kit h hk]
      exact hwf k hk
    · rw [getD_append_rt (by rw [htl]; omega), htl]
      rcases Nat.lt_or_ge k li with h2 | h2
      · rw [getD_append_left (by rw [hml]; omega)]
        rw [getD_map_f (by rw [List.length_reverse, hsl]; omega)]
        refine _bitswap_lt hD ?_
        rw [getD_reverse (by rw [hsl]; omega), hsl]
        rw [drop_take_getD ws fi (li - fi) _ (by omega) (by omega)]
        exact hwf _ (by omega)
      · rw [getD_append_rt (by rw [hml]; omega), hml]
        have hidx : k - fi - (li - fi) = k - li := by omega
        rw [hidx, getD_drop_kit (by omega)]
        exact hwf _ (by omega)

/-- Length and word bound preservation for the single-word branch. -/
theorem reverse_same_len_wf (D : Nat) (hD : 0 < D) (ws : List Nat) (fi fp lp : Nat)
    (hwf : ∀ k, k < ws.length → ws.getD k 0 < 2 ^ D)
    (hlp1 : 0 < lp) (hfi : fi < ws.length) :
    (reverse D ws fi fp fi lp).length = ws.length
    ∧ ∀ k, k < ws.length → (reverse D ws fi fp fi lp).getD k 0 < 2 ^ D := by
  have hres : reverse D ws fi fp fi lp
      = ws.set fi (_bitblend D (ws.getD fi 0)
          (_bitswap D (ws.getD fi 0 >>> fp) >>> (D - lp)) fp (lp - fp)) := by
    simp only [reverse, wordAt]
    rw [if_neg (by rintro ⟨h1, h2⟩; omega), if_neg (by simp),
      if_neg (by omega : ¬lp = 0), Nat.mul_one]
  rw [hres]
  refine ⟨by simp, ?_⟩
  intro k hk
  by_cases hkfi : k = fi
  · subst hkfi
    rw [getD_set_self_kit hfi]
    exact _bitblend_lt (hwf k hk)
  · rw [getD_set_ne_kit hkfi]
    exact hwf k hk

/-- Length and word bound preservation for the multi-word unaligned branch. -/
theorem reverse_mid_len_wf (D : Nat) (hD : 0 < D) (ws : List Nat) (fi fp li lp : Nat)
    (hwf : ∀ k, k < ws.length → ws.getD k 0 < 2 ^ D)
    (hfp : fp < D) (hlp : lp < D)
    (hnal : ¬(fp = 0 ∧ lp = 0)) (hfl : fi < li)
    (hbound : li * D + lp ≤ ws.length * D) :
    (reverse D ws fi fp li lp).length = ws.length
    ∧ ∀ k, k < ws.length → (reverse D ws fi fp li lp).getD k 0 < 2 ^ D := by
  have hlile : li ≤ ws.length :=
    Nat.le_of_mul_le_mul_right (show li * D ≤ ws.length * D by omega) hD
  set E := li + (if lp = 0 then 0 else 1) with hE
  have hEle : E ≤ ws.length := by
    rw [hE]
    by_cases h0 : lp = 0
    · rw [if_pos h0]
      omega
    · rw [if_neg h0]
      have h1 : li * D < ws.length * D := by omega
      have h2 : li < ws.length := lt_of_mul_lt_mul_right h1 (Nat.zero_le D)
      omega
  have hfiE : fi < E := by
    rw [hE]
    by_cases h0 : lp = 0
    · rw [if_pos h0]
      omega
    · rw [if_neg h0]
      omega
  set gap := (D - lp) * (if lp = 0 then 0 else 1) with hgap
  set seg := (ws.drop fi).take (E - fi) with hseg
  have hseglen : seg.length = E - fi := by
    rw [hseg]
    simp
    omega
  have hm1 : 1 ≤ seg.length := by
    rw [hseglen]
    omega
  have hsegget : ∀ j, j < E - fi → seg.getD j 0 = ws.getD (fi + j) 0 := by
    intro j hj
    rw [hseg]
    exact drop_take_getD ws fi (E - fi) j hj (by omega)
  have hsegwf : ∀ j, j < seg.length → seg.getD j 0 < 2 ^ D := by
    intro j hj
    rw [hseglen] at hj
    rw [hsegget j hj]
    exact hwf _ (by omega)
  have hrevwf : ∀ t, t < seg.reverse.length → seg.reverse.getD t 0 < 2 ^ D := by
    rw [List.length_reverse]
    exact fun t ht => reverse_getD_wf hsegwf t ht
  set seg3 := ((if fp < gap then shldMap D (gap - fp) seg.reverse
      else if gap < fp then shrdMap D (fp - gap) seg.reverse
      else seg.reverse).map (_bitswap D)) with hseg3
  have hseg3_len : seg3.length = seg.length := by
    rw [hseg3]
    by_cases h1 : fp < gap
    · rw [if_pos h1]
      simp [shldMap_length]
    · rw [if_neg h1]
      by_cases h2 : gap < fp
      · rw [if_pos h2]
        simp [shrdMap_length]
      · rw [if_neg h2]
        simp
  have hseg3_wf : ∀ j, j < seg.length → seg3.getD j 0 < 2 ^ D := by
    intro j hj
    rw [hseg3]
    by_cases h1 : fp < gap
    · rw [if_pos h1, getD_map_f (by rw [shldMap_length, List.length_reverse]; omega)]
      exact _bitswap_lt hD (shldMap_wf D (gap - fp) hD seg.reverse hrevwf j
        (by rw [List.length_reverse]; omega))
    · rw [if_neg h1]
      by_cases h2 : gap < fp
      · rw [if_pos h2, getD_map_f (by rw [shrdMap_length, List.length_reverse]; omega)]
        exact _bitswap_lt hD (shrdMap_wf D (fp - gap) hD seg.reverse hrevwf j
          (by rw [List.length_reverse]; omega))
      · rw [if_neg h2, getD_map_f (by rw [List.length_reverse]; omega)]
        exact _bitswap_lt hD (hrevwf j (by rw [List.length_reverse]; omega))
  set seg4 := (if fp = 0 then seg3
      else seg3.set 0 (_bitblend D (ws.getD fi 0) (seg3.headD 0) fp (D - fp))) with hseg4
  set seg5 := (if lp = 0 then seg4
      else seg4.set (E - fi - 1)
        (_bitblend D (seg4.getD (E - fi - 1) 0)
          (ws.getD (li - (if lp = 0 then 1 else 0)) 0) lp (D - lp))) with hseg5
  have hres : reverse D ws fi fp li lp = ws.take fi ++ seg5 ++ ws.drop E := by
    rw [hseg5, hseg4, hseg3, hseg, hE, hgap]
    simp only [reverse, wordAt]
    rw [if_neg hnal, if_pos (by omega : fi ≠ li)]
  have hseg4_len : seg4.length = seg.length := by
    rw [hseg4]
    by_cases h0 : fp = 0
    · rw [if_pos h0]
      exact hseg3_len
    · rw [if_neg h0, List.length_set]
      exact hseg3_len
  have hseg5_len : seg5.length = seg.length := by
    rw [hseg5]
    by_cases h0 : lp = 0
    · rw [if_pos h0]
      exact hseg4_len
    · rw [if_neg h0, List.length_set]
      exact hseg4_len
  have hseg4_wf : ∀ j, j < seg.length → seg4.getD j 0 < 2 ^ D := by
    intro j hj
    rw [hseg4]
    by_cases h0 : fp = 0
    · rw [if_pos h0]
      exact hseg3_wf j hj
    · rw [if_neg h0]
      by_cases hj0 : j = 0
      · subst hj0
        rw [getD_set_self_kit (by rw [hseg3_len]; omega)]
        exact _bitblend_lt (hwf fi (by omega))
      · rw [getD_set_ne_kit hj0]
        exact hseg3_wf j hj
  have hseg5_wf : ∀ j, j < seg.length → seg5.getD j 0 < 2 ^ D := by
    intro j hj
    rw [hseg5]
    by_cases h0 : lp = 0
    · rw [if_pos h0]
      exact hseg4_wf j hj
    · rw [if_neg h0]
      by_cases hjE : j = E - fi - 1
      · rw [hjE, getD_set_self_kit (by rw [hseg4_len, hseglen]; omega)]
        exact _bitblend_lt (hseg4_wf _ (by rw [hseglen]; omega))
      · rw [getD_set_ne_kit hjE]
        exact hseg4_wf j hj
  have htake_len : (ws.take fi).length = fi := by
    simp
    omega
  constructor
  · rw [hres]
    simp only [List.length_append, List.length_take, List.length_drop]
    rw [hseg5_len, hseglen]
    omega
  · intro k hk
    rw [hres, List.append_assoc]
    rcases Nat.lt_or_ge k fi with h | h
    · rw [getD_append_left (by rw [htake_len]; omega), getD_take_kit h hk]
      exact hwf k hk
    · rw [getD_append_rt (by rw [htake_len]; omega), htake_len]
      rcases Nat.lt_or_ge k E with h2 | h2
      · rw [getD_append_left (by rw [hseg5_len, hseglen]; omega)]
        exact hseg5_wf _ (by rw [hseglen]; omega)
      · rw [getD_append_rt (by rw [hseg5_len, hseglen]; omega), hseg5_len, hseglen]
        have hidx : k - fi - (E - fi) = k - E := by omega
        rw [hidx, getD_drop_kit (by omega)]
        exact hwf _ (by omega)

/-- The full specification of `reverse(first, last)`: the word sequence keeps
its length and word bounds, bits inside `[fi * D + fp, li * D + lp)` are
reversed and every bit outside the range is unchanged. -/
theorem reverse_spec (D : Nat) (hD : 0 < D) (ws : List Nat) (fi fp li lp : Nat)
    (hwf : ∀ k, k < ws.length → ws.getD k 0 < 2 ^ D)
    (hfp : fp < D) (hlp : lp < D)
    (hle : fi * D + fp ≤ li * D + lp)
    (hbound : li * D + lp ≤ ws.length * D) :
    (reverse D ws fi fp li lp).length = ws.length
    ∧ (∀ k, k < ws.length → (reverse D ws fi fp li lp).getD k 0 < 2 ^ D)
    ∧ ∀ n, n < ws.length * D →
        bitGet D (reverse D ws fi fp li lp) n =
          if fi * D + fp ≤ n ∧ n < li * D + lp
          then bitGet D ws (fi * D + fp + (li * D + lp) - 1 - n)
          else bitGet D ws n := by
  have hfile : fi ≤ li := by
    by_contra hcon
    push_neg at hcon
    have h := Nat.mul_le_mul_right D (show li + 1 ≤ fi by omega)
    have h2 : (li + 1) * D = li * D + D := by ring
    omega
  have hbits : ∀ n, bitGet D (reverse D ws fi fp li lp) n
      = ((reverse D ws fi fp li lp).getD (n / D) 0).testBit (n % D) := fun n => rfl
  by_cases hal : fp = 0 ∧ lp = 0
  · obtain ⟨h1, h2⟩ := hal
    subst h1
    subst h2
    have hliw : li ≤ ws.length := Nat.le_of_mul_le_mul_right (by omega) hD
    have hfl2 : fi ≤ li := hfile
    obtain ⟨hlen, hwf2⟩ := reverse_aligned_len_wf D hD ws fi li hwf hfl2 hliw
    refine ⟨hlen, hwf2, ?_⟩
    intro n hn
    simp only [Nat.add_zero]
    have hkb : n / D < ws.length := (Nat.div_lt_iff_lt_mul hD).mpr hn
    have hrb : n % D < D := Nat.mod_lt _ hD
    have hsplit : n = n / D * D + n % D := by
      rw [Nat.mul_comm]
      exact (Nat.div_add_mod n D).symm
    rw [hbits n, reverse_aligned_getD D hD ws fi li hwf hfl2 hliw _ _ hkb hrb, ← hsplit]
    have hbw : bitGet D ws n = (ws.getD (n / D) 0).testBit (n % D) := rfl
    rw [← hbw]
  · by_cases hfil : fi = li
    · subst hfil
      have hple : fp ≤ lp := by omega
      have hlp1 : 0 < lp := by omega
      have hfiw : fi < ws.length := by
        have h1 : fi * D < ws.length * D := by omega
        exact lt_of_mul_lt_mul_right h1 (Nat.zero_le D)
      obtain ⟨hlen, hwf2⟩ := reverse_same_len_wf D hD ws fi fp lp hwf hlp1 hfiw
      refine ⟨hlen, hwf2, ?_⟩
      intro n hn
      have hkb : n / D < ws.length := (Nat.div_lt_iff_lt_mul hD).mpr hn
      have hrb : n % D < D := Nat.mod_lt _ hD
      have hsplit : n = n / D * D + n % D := by
        rw [Nat.mul_comm]
        exact (Nat.div_add_mod n D).symm
      rw [hbits n, reverse_same_getD D hD ws fi fp lp hwf hfp hlp hple hlp1 hfiw _ _ hkb hrb,
        ← hsplit]
      have hbw : bitGet D ws n = (ws.getD (n / D) 0).testBit (n % D) := rfl
      rw [← hbw]
    · have hfl : fi < li := by omega
      obtain ⟨hlen, hwf2⟩ := reverse_mid_len_wf D hD ws fi fp li lp hwf hfp hlp hal hfl hbound
      refine ⟨hlen, hwf2, ?_⟩
      intro n hn
      have hkb : n / D < ws.length := (Nat.div_lt_iff_lt_mul hD).mpr hn
      have hrb : n % D < D := Nat.mod_lt _ hD
      have hsplit : n = n / D * D + n % D := by
        rw [Nat.mul_comm]
        exact (Nat.div_add_mod n D).symm
      rw [hbits n, reverse_mid_getD D hD ws fi fp li lp hwf hfp hlp hal hfl hbound _ _ hkb hrb,
        ← hsplit]
      have hbw : bitGet D ws n = (ws.getD (n / D) 0).testBit (n % D) := rfl
      rw [← hbw]

/-- Two word sequences of the same length bounded by `2 ^ D` and agreeing on
every flat bit are equal. -/
theorem list_eq_of_bitGet_eq (D : Nat) (hD : 0 < D) (l1 l2 : List Nat)
    (hlen : l1.length = l2.length)
    (h1 : ∀ k, k < l1.length → l1.getD k 0 < 2 ^ D)
    (h2 : ∀ k, k < l2.length → l2.getD k 0 < 2 ^ D)
    (hbit : ∀ n, n < l1.length * D → bitGet D l1 n = bitGet D l2 n) :
    l1 = l2 := by
  apply List.ext_getElem hlen
  intro k hk1 hk2
  apply Nat.eq_of_testBit_eq
  intro r
  have e1 : l1[k] = l1.getD k 0 := (List.getD_eq_getElem l1 0 hk1).symm
  have e2 : l2[k] = l2.getD k 0 := (List.getD_eq_getElem l2 0 hk2).symm
  rw [e1, e2]
  by_cases hr : r < D
  · have hn : k * D + r < l1.length * D := by
      have h := Nat.mul_le_mul_right D (show k + 1 ≤ l1.length by omega)
      have hh : (k + 1) * D = k * D + D := by ring
      omega
    have hb := hbit (k * D + r) hn
    rw [bitGet_word D hD l1 k r hr, bitGet_word D hD l2 k r hr] at hb
    exact hb
  · rw [testBit_ge (h1 k hk1) (by omega), testBit_ge (h2 k (by omega)) (by omega)]

/-- Applying `reverse` twice over the same range restores the word sequence. -/
theorem reverse_involution (D : Nat) (hD : 0 < D) (ws : List Nat) (fi fp li lp : Nat)
    (hwf : ∀ k, k < ws.length → ws.getD k 0 < 2 ^ D)
    (hfp : fp < D) (hlp : lp < D)
    (hle : fi * D + fp ≤ li * D + lp)
    (hbound : li * D + lp ≤ ws.length * D) :
    reverse D (reverse D ws fi fp li lp) fi fp li lp = ws := by
  obtain ⟨hlen1, hwf1, hbit1⟩ := reverse_spec D hD ws fi fp li lp hwf hfp hlp hle hbound
  have hwf1b : ∀ k, k < (reverse D ws fi fp li lp).length →
      (reverse D ws fi fp li lp).getD k 0 < 2 ^ D := by
    intro k hk
    exact hwf1 k (by omega)
  obtain ⟨hlen2, hwf2, hbit2⟩ := reverse_spec D hD (reverse D ws fi fp li lp) fi fp li lp
    hwf1b hfp hlp hle (by rw [hlen1]; exact hbound)
  refine list_eq_of_bitGet_eq D hD _ _ (by rw [hlen2, hlen1]) ?_ ?_ ?_
  · intro k hk
    apply hwf2
    omega
  · exact hwf
  · intro n hn
    have hn1 : n < (reverse D ws fi fp li lp).length * D := by
      rw [hlen2] at hn
      exact hn
    rw [hbit2 n hn1]
    have hnw : n < ws.length * D := by
      rw [hlen2, hlen1] at hn
      exact hn
    by_cases hin : fi * D + fp ≤ n ∧ n < li * D + lp
    · rw [if_pos hin]
      have hmid : fi * D + fp ≤ fi * D + fp + (li * D + lp) - 1 - n
          ∧ fi * D + fp + (li * D + lp) - 1 - n < li * D + lp := by
        constructor <;> omega
      rw [hbit1 (fi * D + fp + (li * D + lp) - 1 - n) (by omega), if_pos hmid]
      congr 1
      omega
    · rw [if_neg hin, hbit1 n hnw, if_neg hin]

/-! ## Bit reference: read, write and frame -/

theorem bne_and_two_pow (x pos : Nat) : (x &&& (1 <<< pos) != 0) = x.testBit pos := by
  rw [Nat.shiftLeft_eq, Nat.one_mul]
  by_cases h : x.testBit pos
  · have hbit : (x &&& 2 ^ pos).testBit pos = true := by
      rw [Nat.testBit_and, h, Nat.testBit_two_pow_self]
      rfl
    have hne : x &&& 2 ^ pos ≠ 0 := by
      intro hcon
      rw [hcon] at hbit
      simp [Nat.zero_testBit] at hbit
    simp [hne, h]
  · rw [Bool.not_eq_true] at h
    have hz : x &&& 2 ^ pos = 0 := by
      apply Nat.eq_of_testBit_eq
      intro j
      rw [Nat.testBit_and, Nat.zero_testBit]
      by_cases hj : j = pos
      · subst hj
        rw [h]
        rfl
      · rw [Nat.testBit_two_pow_of_ne (fun hcon => hj hcon.symm)]
        simp
    rw [hz, h]
    rfl

/-- Writing a boolean through a bit reference constructed at `(i, pos)` and
reading back through a fresh reference at the same place yields the written
value; the list keeps its length and every other bit of every word is
untouched. -/
theorem bit_reference_rw (D : Nat) (hD : 0 < D) (ws : List Nat) (i pos : Nat)
    (hwf : ∀ k, k < ws.length → ws.getD k 0 < 2 ^ D)
    (hi : i < ws.length) (hpos : pos < D) (b : Bool) :
    ((bit_reference.make i pos).assign D ws b).length = ws.length
    ∧ (bit_reference.make i pos).read ((bit_reference.make i pos).assign D ws b) = b
    ∧ ∀ k r, k < ws.length → r < D → ¬(k = i ∧ r = pos) →
        (((bit_reference.make i pos).assign D ws b).getD k 0).testBit r
          = (ws.getD k 0).testBit r := by
  cases b
  · refine ⟨?_, ?_, ?_⟩
    · simp only [bit_reference.assign, bit_reference.reset, bit_reference.make, wordAt]
      rw [if_neg (by simp)]
      simp
    · simp only [bit_reference.assign, bit_reference.reset, bit_reference.read,
        bit_reference.make, wordAt]
      rw [if_neg (by simp), getD_set_self_kit hi, bne_and_two_pow]
      rw [Nat.testBit_and, Nat.testBit_xor, Nat.testBit_two_pow_sub_one,
        decide_eq_true hpos, Nat.shiftLeft_eq, Nat.one_mul, Nat.testBit_two_pow_self]
      cases (ws.getD i 0).testBit pos <;> rfl
    · intro k r hk hr hne
      simp only [bit_reference.assign, bit_reference.reset, bit_reference.make, wordAt]
      rw [if_neg (by simp)]
      by_cases hki : k = i
      · subst hki
        have hrpos : r ≠ pos := fun h => hne ⟨rfl, h⟩
        rw [getD_set_self_kit hi, Nat.testBit_and, Nat.testBit_xor,
          Nat.testBit_two_pow_sub_one, decide_eq_true hr, Nat.shiftLeft_eq, Nat.one_mul,
          Nat.testBit_two_pow_of_ne (fun h => hrpos h.symm)]
        cases (ws.getD k 0).testBit r <;> rfl
      · rw [getD_set_ne_kit hki]
  · refine ⟨?_, ?_, ?_⟩
    · simp only [bit_reference.assign, bit_reference.set, bit_reference.make, wordAt]
      rw [if_pos (by trivial)]
      simp
    · simp only [bit_reference.assign, bit_reference.set, bit_reference.read,
        bit_reference.make, wordAt]
      rw [if_pos (by trivial), getD_set_self_kit hi, bne_and_two_pow]
      rw [Nat.testBit_or, Nat.shiftLeft_eq, Nat.one_mul, Nat.testBit_two_pow_self]
      cases (ws.getD i 0).testBit pos <;> rfl
    · intro k r hk hr hne
      simp only [bit_reference.assign, bit_reference.set, bit_reference.make, wordAt]
      rw [if_pos (by trivial)]
      by_cases hki : k = i
      · subst hki
        have hrpos : r ≠ pos := fun h => hne ⟨rfl, h⟩
        rw [getD_set_self_kit hi, Nat.testBit_or, Nat.shiftLeft_eq, Nat.one_mul,
          Nat.testBit_two_pow_of_ne (fun h => hrpos h.symm)]
        cases (ws.getD k 0).testBit r <;> rfl
      · rw [getD_set_ne_kit hki]

/-! ## Case characterizations of the field extraction and the double shifts -/

/-- `_bextr` by cases on the arguments: the right-justified field, everything
from `start` upward when `len ≥ D`, and `0` when `start ≥ D`. -/
theorem bextr_cases (D src start len : Nat) (hD : 0 < D) (hsrc : src < 2 ^ D) :
    _bextr D src start len =
      if start < D then (if len < D then (src >>> start) % 2 ^ len else src >>> start)
      else 0 := by
  by_cases hstart : start < D
  · by_cases hlen : len < D
    · rw [if_pos hstart, if_pos hlen, bextr_eq_mod hstart hlen]
    · rw [if_pos hstart, if_neg hlen]
      have h4 : (1 : Nat) ≤ 2 ^ D := Nat.one_le_two_pow
      simp only [_bextr, if_neg hlen, if_pos hstart, Nat.mul_zero, Nat.zero_add, Nat.mul_one]
      rw [Nat.mod_eq_of_lt (by omega), land_two_pow_sub_one]
      exact Nat.mod_eq_of_lt (Nat.lt_of_le_of_lt (shiftRight_le_self _ _) hsrc)
  · rw [if_neg hstart]
    simp only [_bextr, if_neg hstart, Nat.mul_zero, Nat.and_zero]

/-- `_shld` is the middle word of the shifted concatenation `dst:src`, for
every count. -/
theorem shld_div_char (D dst src cnt : Nat) (hD : 0 < D) (hdst : dst < 2 ^ D)
    (hsrc : src < 2 ^ D) :
    _shld D dst src cnt = (dst * 2 ^ D + src) * 2 ^ cnt / 2 ^ D % 2 ^ D := by
  have hv : dst * 2 ^ D + src = src + dst * 2 ^ D := by ring
  apply Nat.eq_of_testBit_eq
  intro r
  by_cases hr : r < D
  · rw [Nat.testBit_mod_two_pow, decide_eq_true hr, Bool.true_and]
    rw [← Nat.shiftLeft_eq, ← Nat.shiftRight_eq_div_pow, Nat.testBit_shiftRight,
      Nat.testBit_shiftLeft]
    unfold _shld
    by_cases h1 : cnt < D
    · rw [if_pos h1, Nat.testBit_or, Nat.testBit_mod_two_pow, Nat.testBit_shiftLeft,
        Nat.testBit_shiftRight, decide_eq_true hr]
      by_cases h2 : cnt ≤ r
      · rw [decide_eq_true h2, decide_eq_true (show cnt ≤ D + r by omega)]
        rw [hv, testBit_add_high hsrc (D + r - cnt) (by omega)]
        rw [testBit_ge hsrc (show D ≤ D - cnt + r by omega)]
        simp only [Bool.true_and, Bool.or_false]
        congr 1
        omega
      · rw [decide_eq_false h2, decide_eq_true (show cnt ≤ D + r by omega)]
        rw [hv, testBit_add_low hsrc (D + r - cnt) (by omega)]
        simp only [Bool.false_and, Bool.and_false, Bool.false_or, Bool.true_and]
        congr 1
        omega
    · rw [if_neg h1]
      by_cases h3 : cnt < D + D
      · rw [if_pos h3, Nat.mul_one, Nat.testBit_mod_two_pow, Nat.testBit_shiftLeft,
          decide_eq_true hr]
        by_cases h4 : cnt ≤ D + r
        · rw [decide_eq_true (show cnt - D ≤ r by omega), decide_eq_true h4]
          rw [hv, testBit_add_low hsrc (D + r - cnt) (by omega)]
          simp only [Bool.true_and]
          congr 1
          omega
        · rw [decide_eq_false (show ¬cnt - D ≤ r by omega), decide_eq_false h4]
          simp
      · rw [if_neg h3, Nat.mul_zero, Nat.zero_testBit,
          decide_eq_false (show ¬cnt ≤ D + r by omega)]
        simp
  · rw [testBit_ge (_shld_lt hsrc) (by omega),
      testBit_ge (mod_two_pow_lt _ _) (by omega)]

/-- `_shrd` is the low word of the shifted concatenation `src:dst`, for
every count. -/
theorem shrd_div_char (D dst src cnt : Nat) (hD : 0 < D) (hdst : dst < 2 ^ D)
    (hsrc : src < 2 ^ D) :
    _shrd D dst src cnt = (src * 2 ^ D + dst) / 2 ^ cnt % 2 ^ D := by
  have hv : src * 2 ^ D + dst = dst + src * 2 ^ D := by ring
  apply Nat.eq_of_testBit_eq
  intro r
  by_cases hr : r < D
  · rw [Nat.testBit_mod_two_pow, decide_eq_true hr, Bool.true_and,
      ← Nat.shiftRight_eq_div_pow, Nat.testBit_shiftRight]
    unfold _shrd
    by_cases h1 : cnt < D
    · rw [if_pos h1, Nat.testBit_or, Nat.testBit_shiftRight, Nat.testBit_mod_two_pow,
        Nat.testBit_shiftLeft, decide_eq_true hr]
      by_cases h2 : cnt + r < D
      · rw [hv, testBit_add_low hdst (cnt + r) h2,
          decide_eq_false (show ¬D - cnt ≤ r by omega)]
        simp
      · rw [hv, testBit_add_high hdst (cnt + r) (by omega),
          testBit_ge hdst (show D ≤ cnt + r by omega),
          decide_eq_true (show D - cnt ≤ r by omega)]
        simp only [Bool.false_or, Bool.true_and]
        congr 1
        omega
    · rw [if_neg h1]
      by_cases h3 : cnt < D + D
      · rw [if_pos h3, Nat.mul_one, Nat.testBit_shiftRight]
        rw [hv, testBit_add_high hdst (cnt + r) (by omega)]
        congr 1
        omega
      · rw [if_neg h3, Nat.mul_zero, Nat.zero_testBit]
        have h5 : src + 1 ≤ 2 ^ D := hsrc
        have h6 : (src + 1) * 2 ^ D ≤ 2 ^ D * 2 ^ D := Nat.mul_le_mul_right _ h5
        have h7 : (2 : Nat) ^ D * 2 ^ D = 2 ^ (D + D) := by rw [← pow_add]
        have h8 : (src + 1) * 2 ^ D = src * 2 ^ D + 2 ^ D := by ring
        have hwlt : dst + src * 2 ^ D < 2 ^ (D + D) := by omega
        rw [hv, testBit_ge hwlt (by omega)]
  · rw [testBit_ge (_shrd_lt hdst hsrc) (by omega),
      testBit_ge (mod_two_pow_lt _ _) (by omega)]

/-! ## The claims -/

/-- C1: for every valid range `[first, last)` over a word sequence and either
bit value, `count` returns the number of bits in the range equal to the value,
the same result as the naive per-bit loop, for any alignment of the two ends;
consequently the two counts of a range sum to its length `last - first`. -/
theorem count_correct (D : Nat) (hD : 0 < D) (ws : List Nat)
    (hwf : ∀ w ∈ ws, w < 2 ^ D) (fi fp li lp : Nat)
    (hfp : fp < D) (hlp : lp < D) (hle : fi * D + fp ≤ li * D + lp) (v : Bool) :
    count D ws fi fp li lp v = (naiveCount D ws (fi * D + fp) (li * D + lp) v : Int)
    ∧ count D ws fi fp li lp v + count D ws fi fp li lp (!v)
      = ((li * D + lp : Nat) : Int) - ((fi * D + fp : Nat) : Int) :=
  ⟨count_eq_naive D hD ws hwf fi fp li lp hfp hlp hle v,
   count_add_count D hD ws hwf fi fp li lp hfp hlp hle v⟩

/-- Witness for C1 at the specification's example byte `0b10110000` over the
whole range `[0, 8)`. -/
theorem count_correct_witness :
    (0 < 8 ∧ (∀ w ∈ [176], w < 2 ^ 8) ∧ 0 * 8 + 0 ≤ 1 * 8 + 0)
    ∧ (count 8 [176] 0 0 1 0 true = (naiveCount 8 [176] (0 * 8 + 0) (1 * 8 + 0) true : Int)
      ∧ count 8 [176] 0 0 1 0 true + count 8 [176] 0 0 1 0 (!true)
        = ((1 * 8 + 0 : Nat) : Int) - ((0 * 8 + 0 : Nat) : Int)) :=
  ⟨⟨by decide, by decide, by decide⟩,
   count_correct 8 (by decide) [176] (by decide) 0 0 1 0 (by decide) (by decide) (by decide)
     true⟩

/-- C2: after `reverse(first, last)` the bits inside `[first, last)` hold the
original bit sequence of the range in reverse order and every bit strictly
outside the range — the other bits of the partially covered boundary words
included — is bit-for-bit unchanged, in all three alignment cases; the word
sequence keeps its length and word bounds. -/
theorem reverse_correct (D : Nat) (hD : 0 < D) (ws : List Nat) (fi fp li lp : Nat)
    (hwf : ∀ k, k < ws.length → ws.getD k 0 < 2 ^ D)
    (hfp : fp < D) (hlp : lp < D)
    (hle : fi * D + fp ≤ li * D + lp)
    (hbound : li * D + lp ≤ ws.length * D) :
    (reverse D ws fi fp li lp).length = ws.length
    ∧ (∀ k, k < ws.length → (reverse D ws fi fp li lp).getD k 0 < 2 ^ D)
    ∧ ∀ n, n < ws.length * D →
        bitGet D (reverse D ws fi fp li lp) n =
          if fi * D + fp ≤ n ∧ n < li * D + lp
          then bitGet D ws (fi * D + fp + (li * D + lp) - 1 - n)
          else bitGet D ws n :=
  reverse_spec D hD ws fi fp li lp hwf hfp hlp hle hbound

/-- Witness for C2 at a mid-word range of a two-byte sequence. -/
theorem reverse_correct_witness :
    (0 < 8 ∧ (∀ k, k < [176, 200].length → [176, 200].getD k 0 < 2 ^ 8)
      ∧ 0 * 8 + 3 ≤ 1 * 8 + 5 ∧ 1 * 8 + 5 ≤ [176, 200].length * 8)
    ∧ ((reverse 8 [176, 200] 0 3 1 5).length = [176, 200].length
      ∧ (∀ k, k < [176, 200].length → (reverse 8 [176, 200] 0 3 1 5).getD k 0 < 2 ^ 8)
      ∧ ∀ n, n < [176, 200].length * 8 →
          bitGet 8 (reverse 8 [176, 200] 0 3 1 5) n =
            if 0 * 8 + 3 ≤ n ∧ n < 1 * 8 + 5
            then bitGet 8 [176, 200] (0 * 8 + 3 + (1 * 8 + 5) - 1 - n)
            else bitGet 8 [176, 200] n) :=
  ⟨⟨by decide, by decide, by decide, by decide⟩,
   reverse_correct 8 (by decide) [176, 200] 0 3 1 5 (by decide) (by decide) (by decide)
     (by decide) (by decide)⟩

/-- C3: for every word array, every bit index inside it and every boolean,
writing the boolean through a bit reference constructed at word `i`, position
`pos`, and reading back through a freshly constructed reference at the same
place yields the written value, and every other bit of every word of the
array is unchanged by the write. -/
theorem bit_reference_roundtrip (D : Nat) (hD : 0 < D) (ws : List Nat) (i pos : Nat)
    (hwf : ∀ k, k < ws.length → ws.getD k 0 < 2 ^ D)
    (hi : i < ws.length) (hpos : pos < D) (b : Bool) :
    ((bit_reference.make i pos).assign D ws b).length = ws.length
    ∧ (bit_reference.make i pos).read ((bit_reference.make i pos).assign D ws b) = b
    ∧ ∀ k r, k < ws.length → r < D → ¬(k = i ∧ r = pos) →
        (((bit_reference.make i pos).assign D ws b).getD k 0).testBit r
          = (ws.getD k 0).testBit r :=
  bit_reference_rw D hD ws i pos hwf hi hpos b

/-- Witness for C3: setting bit 3 of the byte `0b10110000`. -/
theorem bit_reference_roundtrip_witness :
    (0 < 8 ∧ (∀ k, k < [176].length → [176].getD k 0 < 2 ^ 8) ∧ 0 < [176].length ∧ 3 < 8)
    ∧ (((bit_reference.make 0 3).assign 8 [176] true).length = [176].length
      ∧ (bit_reference.make 0 3).read ((bit_reference.make 0 3).assign 8 [176] true) = true
      ∧ ∀ k r, k < [176].length → r < 8 → ¬(k = 0 ∧ r = 3) →
          (((bit_reference.make 0 3).assign 8 [176] true).getD k 0).testBit r
            = ([176].getD k 0).testBit r) :=
  ⟨⟨by decide, by decide, by decide, by decide⟩,
   bit_reference_roundtrip 8 (by decide) [176] 0 3 (by decide) (by decide) (by decide) true⟩

/-- C4: pointer and iterator arithmetic is specified to floor the word offset
`⌊(position + n) / D⌋` also for negative intermediate sums; the code instead
corrects the truncating division whenever `n < 0`, so a negative step whose
sum stays non-negative is over-corrected.  From position 5, adding `-3` gives
word `-1`, position `10` — outside `[0, D)` — while the specified result is
word `0`, position `2`. -/
theorem pointer_arithmetic_floor_bug :
    bit_iterator.add 8 (bit_iterator.mk 0 5) (-3) = bit_iterator.mk (-1) 10
    ∧ bit_pointer.index 8 5 (-3) = (-1, 10)
    ∧ bit_pointer_index_spec 8 5 (-3) = (0, 2)
    ∧ bit_pointer.index 8 5 (-3) ≠ bit_pointer_index_spec 8 5 (-3)
    ∧ ¬(bit_pointer.index 8 5 (-3)).2 < 8 := by
  decide

/-- C5: iterator arithmetic is claimed associative, `a + m + n = a + (m + n)`;
from the valid iterator at word 0, position 5, stepping by `-3` and then by
`1` gives word 0, position 3, while stepping by `-2` at once gives word `-1`,
position 11, so the law fails — a consequence of the `operator+` correction
firing on `n < 0` instead of on a negative sum. -/
theorem iterator_add_assoc_bug :
    ((bit_iterator.mk 0 5).add 8 (-3)).add 8 1 = bit_iterator.mk 0 3
    ∧ (bit_iterator.mk 0 5).add 8 (-3 + 1) = bit_iterator.mk (-1) 11
    ∧ ¬((bit_iterator.mk 0 5).add 8 (-3)).add 8 1 = (bit_iterator.mk 0 5).add 8 (-3 + 1)
    ∧ (0 : Int) ≤ 5 ∧ (5 : Int) < 8 := by
  decide

/-- C6: applying `reverse(first, last)` twice in succession restores the
underlying word sequence to its original content, bit for bit. -/
theorem reverse_involutive (D : Nat) (hD : 0 < D) (ws : List Nat) (fi fp li lp : Nat)
    (hwf : ∀ k, k < ws.length → ws.getD k 0 < 2 ^ D)
    (hfp : fp < D) (hlp : lp < D)
    (hle : fi * D + fp ≤ li * D + lp)
    (hbound : li * D + lp ≤ ws.length * D) :
    reverse D (reverse D ws fi fp li lp) fi fp li lp = ws :=
  reverse_involution D hD ws fi fp li lp hwf hfp hlp hle hbound

/-- Witness for C6 at a mid-word range of a two-byte sequence. -/
theorem reverse_involutive_witness :
    (0 < 8 ∧ (∀ k, k < [176, 200].length → [176, 200].getD k 0 < 2 ^ 8)
      ∧ 0 * 8 + 3 ≤ 1 * 8 + 5 ∧ 1 * 8 + 5 ≤ [176, 200].length * 8)
    ∧ reverse 8 (reverse 8 [176, 200] 0 3 1 5) 0 3 1 5 = [176, 200] :=
  ⟨⟨by decide, by decide, by decide, by decide⟩,
   reverse_involutive 8 (by decide) [176, 200] 0 3 1 5 (by decide) (by decide) (by decide)
     (by decide) (by decide)⟩

/-- C7: the bit field extraction returns the `len`-bit field of `src`
beginning at `start`, right-justified; `len ≥ D` selects all bits from
`start` upward and `start ≥ D` gives `0` — the operation is total, with no
failure mode for out-of-range arguments. -/
theorem bextr_spec (D src start len : Nat) (hD : 0 < D) (hsrc : src < 2 ^ D) :
    _bextr D src start len =
      if start < D then (if len < D then (src >>> start) % 2 ^ len else src >>> start)
      else 0 :=
  bextr_cases D src start len hD hsrc

/-- Witness for C7: a 3-bit field of the byte `0b10110000` at bit 2. -/
theorem bextr_spec_witness :
    (0 < 8 ∧ 176 < 2 ^ 8)
    ∧ _bextr 8 176 2 3 =
        if 2 < 8 then (if 3 < 8 then (176 >>> 2) % 2 ^ 3 else 176 >>> 2) else 0 :=
  ⟨⟨by decide, by decide⟩, bextr_spec 8 176 2 3 (by decide) (by decide)⟩

/-- C8: for every pair of words and every count, `_shld` is the middle word
of the shifted concatenation `dst:src` and `_shrd` the low word of the
shifted concatenation `src:dst`; in particular the three claimed regimes
hold — `cnt < D` the blended double shift, `D ≤ cnt < 2D` the source
shifted further by `cnt - D`, `cnt ≥ 2D` zero — and no count is undefined. -/
theorem double_shift_spec (D dst src cnt : Nat) (hD : 0 < D) (hdst : dst < 2 ^ D)
    (hsrc : src < 2 ^ D) :
    (_shld D dst src cnt = (dst * 2 ^ D + src) * 2 ^ cnt / 2 ^ D % 2 ^ D
      ∧ _shrd D dst src cnt = (src * 2 ^ D + dst) / 2 ^ cnt % 2 ^ D)
    ∧ (cnt < D → _shld D dst src cnt = ((dst <<< cnt) % 2 ^ D) ||| (src >>> (D - cnt))
        ∧ _shrd D dst src cnt = (dst >>> cnt) ||| ((src <<< (D - cnt)) % 2 ^ D))
    ∧ (D ≤ cnt → cnt < D + D → _shld D dst src cnt = (src <<< (cnt - D)) % 2 ^ D
        ∧ _shrd D dst src cnt = src >>> (cnt - D))
    ∧ (D + D ≤ cnt → _shld D dst src cnt = 0 ∧ _shrd D dst src cnt = 0) := by
  refine ⟨⟨shld_div_char D dst src cnt hD hdst hsrc,
    shrd_div_char D dst src cnt hD hdst hsrc⟩, ?_, ?_, ?_⟩
  · intro h
    constructor
    · unfold _shld
      rw [if_pos h]
    · unfold _shrd
      rw [if_pos h]
  · intro h1 h2
    constructor
    · unfold _shld
      rw [if_neg (by omega), if_pos h2, Nat.mul_one]
    · unfold _shrd
      rw [if_neg (by omega), if_pos h2, Nat.mul_one]
  · intro h1
    constructor
    · unfold _shld
      rw [if_neg (by omega), if_neg (by omega), Nat.mul_zero]
    · unfold _shrd
      rw [if_neg (by omega), if_neg (by omega), Nat.mul_zero]

/-- Witness for C8 at two bytes and count 3. -/
theorem double_shift_spec_witness :
    (0 < 8 ∧ 176 < 2 ^ 8 ∧ 200 < 2 ^ 8)
    ∧ ((_shld 8 176 200 3 = (176 * 2 ^ 8 + 200) * 2 ^ 3 / 2 ^ 8 % 2 ^ 8
        ∧ _shrd 8 176 200 3 = (200 * 2 ^ 8 + 176) / 2 ^ 3 % 2 ^ 8)
      ∧ (3 < 8 → _shld 8 176 200 3 = ((176 <<< 3) % 2 ^ 8) ||| (200 >>> (8 - 3))
          ∧ _shrd 8 176 200 3 = (176 >>> 3) ||| ((200 <<< (8 - 3)) % 2 ^ 8))
      ∧ (8 ≤ 3 → 3 < 8 + 8 → _shld 8 176 200 3 = (200 <<< (3 - 8)) % 2 ^ 8
          ∧ _shrd 8 176 200 3 = 200 >>> (3 - 8))
      ∧ (8 + 8 ≤ 3 → _shld 8 176 200 3 = 0 ∧ _shrd 8 176 200 3 = 0)) :=
  ⟨⟨by decide, by decide, by decide⟩,
   double_shift_spec 8 176 200 3 (by decide) (by decide) (by decide)⟩

/-- C9: stream extraction into a bit value or bit reference is specified to
succeed exactly on the characters `'0'` and `'1'`; the implementation under
`src/` extracts an `unsigned int` instead, so every decimal digit is
accepted: extraction from `'2'` succeeds and stores the bit `0` rather than
setting the stream failure flag.  (Insertion does render `'0'`/`'1'`, and
the later `cpp/` parser behaves as specified, failing on `'2'`.) -/
theorem stream_extract_bug :
    '2' ≠ '0' ∧ '2' ≠ '1'
    ∧ istream_extract_src '2' = (false, false)
    ∧ istream_extract_cpp '2' true = (true, true)
    ∧ ostream_insert true = '1' ∧ ostream_insert false = '0' := by
  decide

/-- C10: `bit_value::operator&=` is specified to leave the logical and of the
old bit with the argument's least significant bit; the code only ever calls
`set()` and never `reset()`, so a set bit stays set even for an even
argument: `true &= 2` keeps the value `true` where the specification gives
`false`.  (The multiplication operator, embedded alongside, does reset.) -/
theorem and_assign_bug :
    bit_value.and_assign true 2 = true
    ∧ bit_value.and_assign_spec true 2 = false
    ∧ bit_value.and_assign true 2 ≠ bit_value.and_assign_spec true 2
    ∧ bit_value.mul_assign true 2 = false := by
  decide

end bit
